import Mathlib

/-!
# Security-scheme overlay transformation

A shallow embedding of the OpenAPI overlay transformer described by the
specification, together with the concrete overlay document
(`clients/apps/web` — "Overlay to fix security definition for Speakeasy")
containing the four actions that rewrite an API specification's security
metadata.

The specification document is modelled as a tree of string-keyed mappings,
arrays and scalars (`Node`).  An overlay action carries a target expression
(a path-query string), and either an `update` value (shallow key-wise merge
at every matched location) or a `remove` flag (delete every matched location
from its parent).  Actions are applied strictly in order, each action's
target being re-evaluated against the current, possibly already mutated,
document.

The transformer itself is not part of the repository excerpt (it lives in an
external code-generation tool); it is modelled from the specification:
target evaluation produces the set of matching locations, `update` performs
a shallow key-wise merge at each location, `remove` deletes each matched
location, a target matching zero locations is a no-op, and a malformed
target expression is a `ParseError` that halts processing of the remaining
actions.
-/

set_option autoImplicit false

namespace Overlay

/-- A specification document node: a scalar, an array, or a string-keyed
mapping (represented as an association list of key/value pairs). -/
inductive Node where
  | scalar : String → Node
  | arr : List Node → Node
  | map : List (String × Node) → Node
deriving Repr

/-- Look up a key in an association list (first occurrence). -/
def lookupKey : List (String × Node) → String → Option Node
  | [], _ => none
  | (k', v) :: rest, k => if k' = k then some v else lookupKey rest k

/-- Replace the value of a key in an association list (first occurrence);
append the pair when the key is absent. -/
def setKeyList : List (String × Node) → String → Node → List (String × Node)
  | [], k, v => [(k, v)]
  | (k', v') :: rest, k, v =>
    if k' = k then (k, v) :: rest else (k', v') :: setKeyList rest k v

/-- Delete a key from an association list. -/
def removeKeyList (kvs : List (String × Node)) (k : String) : List (String × Node) :=
  kvs.filter (fun kv => !decide (kv.1 = k))

/-- First-occurrence entries of an association list: for each key, keep the
entry that `lookupKey` sees.  A mapping node of a specification document has
unique keys, for which this is the identity. -/
def dedupKeys : List (String × Node) → List (String × Node)
  | [] => []
  | (k, v) :: rest => (k, v) :: dedupKeys (removeKeyList rest k)
termination_by kvs => kvs.length
decreasing_by
  simp only [List.length_cons, removeKeyList]
  exact Nat.lt_succ_of_le (List.length_filter_le _ _)

/-- Field access on a node: only mappings have fields. -/
def Node.getKey : Node → String → Option Node
  | .map kvs, k => lookupKey kvs k
  | _, _ => none

/-- Replace the value of a field of a mapping node; other nodes unchanged. -/
def Node.setKey : Node → String → Node → Node
  | .map kvs, k, v => .map (setKeyList kvs k v)
  | n, _, _ => n

/-- Delete a field of a mapping node; other nodes unchanged. -/
def Node.removeKey : Node → String → Node
  | .map kvs, k => .map (removeKeyList kvs k)
  | n, _ => n

/-- Walk a chain of field accesses from a node. -/
def getPath : Node → List String → Option Node
  | n, [] => some n
  | n, k :: rest =>
    match n.getKey k with
    | some c => getPath c rest
    | none => none

/-- Shallow key-wise merge of an update value into an existing value: each
key of the update replaces the existing value of that key entirely; keys not
mentioned in the update keep their previous value.  A non-mapping on either
side degenerates to replacement by the update value. -/
def mergeShallow : Node → Node → Node
  | .map kvs, .map ukvs => .map (ukvs.foldl (fun acc kv => setKeyList acc kv.1 kv.2) kvs)
  | _, u => u

/-- Apply the shallow merge of `u` at the location addressed by a key path;
a path that does not resolve leaves the document unchanged. -/
def updateAt : Node → List String → Node → Node
  | n, [], u => mergeShallow n u
  | n, k :: rest, u =>
    match n.getKey k with
    | some c => n.setKey k (updateAt c rest u)
    | none => n

/-- Delete the location addressed by a key path from its parent; the root
itself cannot be deleted, and a path that does not resolve leaves the
document unchanged. -/
def removeAt : Node → List String → Node
  | n, [] => n
  | n, [k] => n.removeKey k
  | n, k :: rest =>
    match n.getKey k with
    | some c => n.setKey k (removeAt c rest)
    | none => n

/-- Modify the node addressed by a key path by a function; a path that
does not resolve leaves the document unchanged.  `updateAt` and `removeAt`
are instances of this scheme. -/
def mapAt : Node → List String → (Node → Node) → Node
  | n, [], f => f n
  | n, k :: rest, f =>
    match n.getKey k with
    | some c => n.setKey k (mapAt c rest f)
    | none => n

/-- Well-formedness of a specification document: every mapping node has
pairwise-distinct keys (a document deserialized from JSON or YAML always
satisfies this). -/
inductive WF : Node → Prop where
  | scalar (s : String) : WF (.scalar s)
  | arr (xs : List Node) : (∀ x, x ∈ xs → WF x) → WF (.arr xs)
  | map (kvs : List (String × Node)) : (kvs.map Prod.fst).Nodup →
      (∀ kv, kv ∈ kvs → WF kv.2) → WF (.map kvs)

/-- A predicate of the target expression language: field presence, an
existence check over the elements of an array-valued field, and negation. -/
inductive Pred where
  | hasField : String → Pred
  | fieldElemMatch : String → Pred → Pred
  | not : Pred → Pred
deriving Repr, DecidableEq

/-- Evaluate a predicate at a node. -/
def evalPred : Pred → Node → Bool
  | .hasField f, n => (n.getKey f).isSome
  | .fieldElemMatch f p, n =>
    match n.getKey f with
    | some (.arr xs) => xs.any (fun x => evalPred p x)
    | _ => false
  | .not p, n => !evalPred p n

/-- A segment of a target expression: a named step, a wildcard step over all
entries of a mapping, or a predicate filter on the current node. -/
inductive Seg where
  | key : String → Seg
  | wildcard : Seg
  | filter : Pred → Seg
deriving Repr, DecidableEq

/-- Evaluate the segments of a target expression from a node, returning the
matched locations: each as its key path from the root paired with the node
found there at selection time. -/
def selectFrom : Node → List String → List Seg → List (List String × Node)
  | n, p, [] => [(p, n)]
  | n, p, .key k :: segs =>
    match n.getKey k with
    | some c => selectFrom c (p ++ [k]) segs
    | none => []
  | n, p, .wildcard :: segs =>
    match n with
    | .map kvs => (dedupKeys kvs).flatMap (fun kv => selectFrom kv.2 (p ++ [kv.1]) segs)
    | _ => []
  | n, p, .filter pr :: segs => if evalPred pr n then selectFrom n p segs else []

/-- The set of locations a target expression matches in a document. -/
def select (d : Node) (segs : List Seg) : List (List String × Node) :=
  selectFrom d [] segs

/-- Identifier characters of the target expression language. -/
def isIdentChar (c : Char) : Bool := c.isAlphanum || c = '_'

/-- Parse one predicate of a target expression; returns the predicate and
the unconsumed input.  Fuel-indexed to bound the recursion. -/
def parsePredAux : Nat → List Char → Option (Pred × List Char)
  | 0, _ => none
  | fuel + 1, '!' :: cs =>
    match parsePredAux fuel cs with
    | some (p, rest) => some (.not p, rest)
    | none => none
  | fuel + 1, '@' :: '.' :: cs =>
    let id := cs.takeWhile isIdentChar
    if id.isEmpty then none
    else
      let f := String.mk id
      match cs.dropWhile isIdentChar with
      | '[' :: '?' :: '(' :: cs2 =>
        match parsePredAux fuel cs2 with
        | some (inner, ')' :: ']' :: rest2) => some (.fieldElemMatch f inner, rest2)
        | _ => none
      | rest => some (.hasField f, rest)
  | _ + 1, _ => none

/-- Parse the segments of a target expression after the leading `$`. -/
def parseSegsAux : Nat → List Char → Option (List Seg)
  | 0, _ => none
  | _ + 1, [] => some []
  | fuel + 1, '.' :: '*' :: cs =>
    match parseSegsAux fuel cs with
    | some segs => some (.wildcard :: segs)
    | none => none
  | fuel + 1, '.' :: cs =>
    let id := cs.takeWhile isIdentChar
    if id.isEmpty then none
    else
      match parseSegsAux fuel (cs.dropWhile isIdentChar) with
      | some segs => some (.key (String.mk id) :: segs)
      | none => none
  | fuel + 1, '[' :: '?' :: '(' :: cs =>
    match parsePredAux fuel cs with
    | some (p, ')' :: ']' :: rest) =>
      match parseSegsAux fuel rest with
      | some segs => some (.filter p :: segs)
      | none => none
    | _ => none
  | _ + 1, _ => none

/-- Parse a target expression: `$` followed by segments.  A malformed
expression yields `none` (a `ParseError`). -/
def parseTarget (s : String) : Option (List Seg) :=
  match s.toList with
  | '$' :: cs => parseSegsAux (cs.length + 1) cs
  | _ => none

/-- An overlay action: a target expression and either an `update` value or
a `remove` flag.  (The `description` metadata of an action has no runtime
effect and is omitted.) -/
structure Action where
  target : String
  update : Option Node
  remove : Bool

/-- Apply one action whose target has been parsed: evaluate the target
against the current document, then merge the update value at every matched
location, or delete every matched location. -/
def applyParsed (d : Node) (segs : List Seg) (a : Action) : Node :=
  let locs := (select d segs).map Prod.fst
  match a.update with
  | some u => locs.foldl (fun acc p => updateAt acc p u) d
  | none => if a.remove then locs.foldl (fun acc p => removeAt acc p) d else d

/-- Apply one action; `none` signals a `ParseError` on the target. -/
def applyAction (d : Node) (a : Action) : Option Node :=
  match parseTarget a.target with
  | some segs => some (applyParsed d segs a)
  | none => none

/-- Result of applying an action sequence: the transformed document, or a
`ParseError` carrying the state produced by the last successfully applied
action (no rollback). -/
inductive ApplyResult where
  | ok : Node → ApplyResult
  | parseError : Node → ApplyResult
deriving Repr

/-- `apply(document, actions)`: fold the actions in document order; a
`ParseError` halts processing of the remaining actions. -/
def apply : Node → List Action → ApplyResult
  | d, [] => .ok d
  | d, a :: rest =>
    match applyAction d a with
    | some d2 => apply d2 rest
    | none => .parseError d

/-! ## The four concrete actions of the overlay document -/

/-- The empty security requirement mapping `{}`. -/
def emptyReq : Node := .map []

/-- Update value of action 1: `security: [{}]`. -/
def upd1 : Node := .map [("security", .arr [emptyReq])]

/-- Action 1: declare optional security on operations that have no security
definition. -/
def action1 : Action := ⟨"$.paths.*.*[?(!@.security)]", some upd1, false⟩

/-- The global security requirement `[{access_token: []}]`. -/
def globalReq : Node := .arr [.map [("access_token", .arr [])]]

/-- Update value of action 2: `security: [{access_token: []}]`. -/
def upd2 : Node := .map [("security", globalReq)]

/-- Action 2: add a global security scheme named `access_token` at the
document root. -/
def action2 : Action := ⟨"$", some upd2, false⟩

/-- The `access_token` security scheme definition. -/
def schemeVal : Node := .map
  [ ("type", .scalar "http")
  , ("scheme", .scalar "bearer")
  , ("description", .scalar "You can generate an **Organization Access Token** from your organization\x27s settings.")
  ]

/-- Update value of action 3: the `access_token` scheme entry. -/
def upd3 : Node := .map [("access_token", schemeVal)]

/-- Action 3: add the `access_token` scheme to `components.securitySchemes`. -/
def action3 : Action := ⟨"$.components.securitySchemes", some upd3, false⟩

/-- Action 4: remove security from individual operations, unless it is a
customer session. -/
def action4 : Action :=
  ⟨"$.paths.*.*[?(!@.security[?(@.customer_session)])].security", none, true⟩

/-- The overlay's action sequence, in document order. -/
def actions : List Action := [action1, action2, action3, action4]

/-! ## Parsed forms of the four targets -/

/-- Predicate of action 1's filter: `!@.security`. -/
def pred1 : Pred := .not (.hasField "security")

/-- Parsed target of action 1. -/
def segs1 : List Seg := [.key "paths", .wildcard, .wildcard, .filter pred1]

/-- Parsed target of action 2 (the bare root `$`). -/
def segs2 : List Seg := []

/-- Parsed target of action 3. -/
def segs3 : List Seg := [.key "components", .key "securitySchemes"]

/-- Predicate of action 4's filter: `!@.security[?(@.customer_session)]`. -/
def pred4 : Pred := .not (.fieldElemMatch "security" (.hasField "customer_session"))

/-- Parsed target of action 4. -/
def segs4 : List Seg :=
  [.key "paths", .wildcard, .wildcard, .filter pred4, .key "security"]

/-- Effect of action 1 on a document. -/
def actA1 (d : Node) : Node := applyParsed d segs1 action1

/-- Effect of action 2 on a document. -/
def actA2 (d : Node) : Node := applyParsed d segs2 action2

/-- Effect of action 3 on a document. -/
def actA3 (d : Node) : Node := applyParsed d segs3 action3

/-- Effect of action 4 on a document. -/
def actA4 (d : Node) : Node := applyParsed d segs4 action4

/-- The full overlay transformation: actions 1–4 in document order. -/
def fullApply (d : Node) : Node := actA4 (actA3 (actA2 (actA1 d)))

/-- Effect of action 1 on a single operation object: merge `security: [{}]`
when the operation has no `security` field. -/
def opT1 (n : Node) : Node := if evalPred pred1 n then mergeShallow n upd1 else n

/-- Effect of action 4 on a single operation object: delete the `security`
field unless the security array carries a `customer_session` entry. -/
def opT4 (n : Node) : Node := if evalPred pred4 n then n.removeKey "security" else n

/-- Apply a function to the value of every entry of a mapping node. -/
def mapEntries (f : Node → Node) : Node → Node
  | .map kvs => .map (kvs.map (fun kv => (kv.1, f kv.2)))
  | n => n

/-- Apply a function to every operation object two levels below `paths`. -/
def mapOps (f : Node → Node) (d : Node) : Node :=
  mapAt d ["paths"] (mapEntries (mapEntries f))

/-- A node that is a mapping. -/
def IsMap (x : Node) : Prop := ∃ kvs, x = Node.map kvs

/-- Every operation object reachable under `paths` is a mapping that either
has no `security` field or fails action 4's filter. -/
def OpsGood (x : Node) : Prop :=
  ∀ a b n, getPath x ["paths", a, b] = some n →
    IsMap n ∧ (n.getKey "security" = none ∨ evalPred pred4 n = false)

/-! ## Parsing the four targets -/

theorem parseTarget_action1 : parseTarget action1.target = some segs1 := by decide

theorem parseTarget_action2 : parseTarget action2.target = some segs2 := by decide

theorem parseTarget_action3 : parseTarget action3.target = some segs3 := by decide

theorem parseTarget_action4 : parseTarget action4.target = some segs4 := by decide

theorem apply_actions_eq (d : Node) : apply d actions = .ok (fullApply d) := by
  simp only [apply, actions, applyAction, parseTarget_action1, parseTarget_action2,
    parseTarget_action3, parseTarget_action4]
  rfl

/-! ## Association-list lemmas -/

theorem lookupKey_setKeyList_self (kvs : List (String × Node)) (k : String) (v : Node) :
    lookupKey (setKeyList kvs k v) k = some v := by
  induction kvs with
  | nil => simp [setKeyList, lookupKey]
  | cons kv rest ih =>
    by_cases h : kv.1 = k
    · simp [setKeyList, h, lookupKey]
    · simp [setKeyList, h, lookupKey, ih]

theorem lookupKey_setKeyList_ne (kvs : List (String × Node)) (k k' : String) (v : Node)
    (h : k' ≠ k) : lookupKey (setKeyList kvs k v) k' = lookupKey kvs k' := by
  have hne : ¬k = k' := fun h' => h h'.symm
  induction kvs with
  | nil => simp [setKeyList, lookupKey, hne]
  | cons kv rest ih =>
    cases kv with
    | mk k1 v1 =>
      by_cases hk : k1 = k
      · subst hk
        simp [setKeyList, lookupKey, hne]
      · simp only [setKeyList, if_neg hk]
        by_cases hk' : k1 = k'
        · simp [lookupKey, hk']
        · simp [lookupKey, hk', ih]

theorem setKeyList_lookup_eq_self (kvs : List (String × Node)) (k : String) (v : Node)
    (h : lookupKey kvs k = some v) : setKeyList kvs k v = kvs := by
  induction kvs with
  | nil => simp [lookupKey] at h
  | cons kv rest ih =>
    by_cases hk : kv.1 = k
    · cases kv with
      | mk k1 v1 =>
        simp only at hk
        subst hk
        simp [lookupKey] at h
        simp [setKeyList, h]
    · simp [lookupKey, hk] at h
      simp [setKeyList, hk, ih h]

theorem setKeyList_setKeyList_same (kvs : List (String × Node)) (k : String) (v v' : Node) :
    setKeyList (setKeyList kvs k v) k v' = setKeyList kvs k v' := by
  induction kvs with
  | nil => simp [setKeyList]
  | cons kv rest ih =>
    by_cases hk : kv.1 = k
    · simp [setKeyList, hk]
    · simp [setKeyList, hk, ih]

theorem lookupKey_eq_none_iff (kvs : List (String × Node)) (k : String) :
    lookupKey kvs k = none ↔ ∀ v, (k, v) ∉ kvs := by
  induction kvs with
  | nil => simp [lookupKey]
  | cons kv rest ih =>
    cases kv with
    | mk k1 v1 =>
      by_cases hk : k1 = k
      · subst hk
        simp only [lookupKey, if_pos rfl]
        constructor
        · intro h; cases h
        · intro h; exact absurd (List.mem_cons_self _ _) (h v1)
      · simp only [lookupKey, if_neg hk, ih]
        constructor
        · intro h v hv
          rcases List.mem_cons.mp hv with h1 | h1
          · exact absurd (congrArg Prod.fst h1).symm hk
          · exact h v h1
        · intro h v hv
          exact h v (List.mem_cons_of_mem _ hv)

theorem setKeyList_append_absent (kvs : List (String × Node)) (k : String) (v : Node)
    (h : lookupKey kvs k = none) : setKeyList kvs k v = kvs ++ [(k, v)] := by
  induction kvs with
  | nil => simp [setKeyList]
  | cons kv rest ih =>
    by_cases hk : kv.1 = k
    · simp [lookupKey, hk] at h
    · simp [lookupKey, hk] at h
      simp [setKeyList, hk, ih h]

theorem removeKeyList_nil (k : String) : removeKeyList [] k = [] := rfl

theorem removeKeyList_cons (k1 k : String) (v1 : Node) (rest : List (String × Node)) :
    removeKeyList ((k1, v1) :: rest) k =
      if k1 = k then removeKeyList rest k else (k1, v1) :: removeKeyList rest k := by
  by_cases h : k1 = k
  · simp [removeKeyList, List.filter_cons, h]
  · simp [removeKeyList, List.filter_cons, h]

theorem lookupKey_removeKeyList_self (kvs : List (String × Node)) (k : String) :
    lookupKey (removeKeyList kvs k) k = none := by
  induction kvs with
  | nil => simp [removeKeyList_nil, lookupKey]
  | cons kv rest ih =>
    cases kv with
    | mk k1 v1 =>
      rw [removeKeyList_cons]
      by_cases hk : k1 = k
      · simpa [hk] using ih
      · simpa [lookupKey, hk] using ih

theorem lookupKey_removeKeyList_ne (kvs : List (String × Node)) (k k' : String)
    (h : k' ≠ k) : lookupKey (removeKeyList kvs k) k' = lookupKey kvs k' := by
  induction kvs with
  | nil => simp [removeKeyList_nil]
  | cons kv rest ih =>
    cases kv with
    | mk k1 v1 =>
      rw [removeKeyList_cons]
      by_cases hk : k1 = k
      · have hk' : ¬k1 = k' := by rw [hk]; exact fun h' => h h'.symm
        simp only [if_pos hk]
        simp [lookupKey, hk', ih]
      · by_cases hk' : k1 = k'
        · subst hk'
          rw [if_neg hk]
          simp [lookupKey]
        · simp [if_neg hk, lookupKey, hk', ih]

theorem removeKeyList_eq_self (kvs : List (String × Node)) (k : String)
    (h : lookupKey kvs k = none) : removeKeyList kvs k = kvs := by
  induction kvs with
  | nil => simp [removeKeyList_nil]
  | cons kv rest ih =>
    cases kv with
    | mk k1 v1 =>
      by_cases hk : k1 = k
      · simp [lookupKey, hk] at h
      · simp only [lookupKey, if_neg hk] at h
        rw [removeKeyList_cons, if_neg hk, ih h]

theorem removeKeyList_append_single (kvs : List (String × Node)) (k : String) (v : Node)
    (h : lookupKey kvs k = none) : removeKeyList (kvs ++ [(k, v)]) k = kvs := by
  induction kvs with
  | nil => simp [removeKeyList_nil, removeKeyList_cons]
  | cons kv rest ih =>
    cases kv with
    | mk k1 v1 =>
      by_cases hk : k1 = k
      · simp [lookupKey, hk] at h
      · simp only [lookupKey, if_neg hk] at h
        rw [List.cons_append, removeKeyList_cons, if_neg hk, ih h]

theorem dedupKeys_cons (k : String) (v : Node) (rest : List (String × Node)) :
    dedupKeys ((k, v) :: rest) = (k, v) :: dedupKeys (removeKeyList rest k) := by
  rw [dedupKeys]

theorem mem_dedupKeys (kvs : List (String × Node)) (k : String) (v : Node) :
    (k, v) ∈ dedupKeys kvs ↔ lookupKey kvs k = some v := by
  induction kvs using dedupKeys.induct with
  | case1 => simp [dedupKeys, lookupKey]
  | case2 k' v' rest ih =>
    rw [dedupKeys_cons]
    by_cases hk : k' = k
    · subst hk
      simp only [lookupKey, if_pos rfl, List.mem_cons]
      constructor
      · rintro (h | h)
        · cases h; rfl
        · have h' := ih.mp h
          rw [lookupKey_removeKeyList_self] at h'
          cases h'
      · intro h; left; cases h; rfl
    · simp only [List.mem_cons, lookupKey, if_neg hk]
      constructor
      · rintro (h | h)
        · exact absurd (congrArg Prod.fst h).symm hk
        · rw [← lookupKey_removeKeyList_ne rest k' k (fun h' => hk h'.symm)]
          exact ih.mp h
      · intro h
        right
        exact ih.mpr (by
          rwa [lookupKey_removeKeyList_ne rest k' k (fun h' => hk h'.symm)])

/-! ## Node-level lemmas -/

theorem getKey_setKey_self (kvs : List (String × Node)) (k : String) (v : Node) :
    (Node.setKey (.map kvs) k v).getKey k = some v := by
  simp [Node.setKey, Node.getKey, lookupKey_setKeyList_self]

theorem getKey_setKey_ne (n : Node) (k k' : String) (v : Node) (h : k' ≠ k) :
    (n.setKey k v).getKey k' = n.getKey k' := by
  cases n with
  | map kvs => simp [Node.setKey, Node.getKey, lookupKey_setKeyList_ne _ _ _ _ h]
  | scalar s => rfl
  | arr xs => rfl

theorem setKey_getKey_self (n : Node) (k : String) (v : Node)
    (h : n.getKey k = some v) : n.setKey k v = n := by
  cases n with
  | map kvs => simp [Node.setKey, setKeyList_lookup_eq_self kvs k v h]
  | scalar s => rfl
  | arr xs => rfl

theorem setKey_setKey_same (n : Node) (k : String) (v v' : Node) :
    (n.setKey k v).setKey k v' = n.setKey k v' := by
  cases n with
  | map kvs => simp [Node.setKey, setKeyList_setKeyList_same]
  | scalar s => rfl
  | arr xs => rfl

theorem getKey_removeKey_self (n : Node) (k : String) :
    (n.removeKey k).getKey k = none := by
  cases n with
  | map kvs => simp [Node.removeKey, Node.getKey, lookupKey_removeKeyList_self]
  | scalar s => rfl
  | arr xs => rfl

theorem getKey_removeKey_ne (n : Node) (k k' : String) (h : k' ≠ k) :
    (n.removeKey k).getKey k' = n.getKey k' := by
  cases n with
  | map kvs => simp [Node.removeKey, Node.getKey, lookupKey_removeKeyList_ne _ _ _ h]
  | scalar s => rfl
  | arr xs => rfl

theorem removeKey_eq_self (n : Node) (k : String) (h : n.getKey k = none) :
    n.removeKey k = n := by
  cases n with
  | map kvs => simp [Node.removeKey, removeKeyList_eq_self kvs k h]
  | scalar s => rfl
  | arr xs => rfl

/-! ## Path lemmas -/

theorem getPath_singleton (n : Node) (k : String) : getPath n [k] = n.getKey k := by
  cases h : n.getKey k <;> simp [getPath, h]

theorem getPath_append (n : Node) (p q : List String) :
    getPath n (p ++ q) = (getPath n p).bind (fun m => getPath m q) := by
  induction p generalizing n with
  | nil => simp [getPath]
  | cons a p ih =>
    cases h : n.getKey a with
    | some c => simp [getPath, h, ih]
    | none => simp [getPath, h]

/-! ## `mapAt` lemmas -/

theorem updateAt_eq_mapAt (p : List String) (n u : Node) :
    updateAt n p u = mapAt n p (fun m => mergeShallow m u) := by
  induction p generalizing n with
  | nil => rfl
  | cons k rest ih =>
    cases h : n.getKey k with
    | some c => simp [updateAt, mapAt, h, ih]
    | none => simp [updateAt, mapAt, h]

theorem removeAt_eq_mapAt (p : List String) (k : String) (n : Node) :
    removeAt n (p ++ [k]) = mapAt n p (fun m => m.removeKey k) := by
  induction p generalizing n with
  | nil => rfl
  | cons a rest ih =>
    cases rest with
    | nil =>
      cases h : n.getKey a with
      | some c => simp [removeAt, mapAt, h]
      | none => simp [removeAt, mapAt, h]
    | cons b rest2 =>
      have h1 : removeAt n ((a :: b :: rest2) ++ [k]) =
          match n.getKey a with
          | some c => n.setKey a (removeAt c ((b :: rest2) ++ [k]))
          | none => n := rfl
      rw [h1]
      cases h : n.getKey a with
      | some c =>
        simp only [h]
        rw [ih c]
        simp [mapAt, h]
      | none => simp [h, mapAt]

theorem getPath_mapAt_self (p : List String) (f : Node → Node) (n m : Node)
    (h : getPath n p = some m) : getPath (mapAt n p f) p = some (f m) := by
  induction p generalizing n with
  | nil =>
    simp [getPath] at h
    subst h
    simp [mapAt, getPath]
  | cons k rest ih =>
    cases hk : n.getKey k with
    | some c =>
      simp only [getPath, hk] at h
      cases n with
      | map kvs =>
        simp only [mapAt, hk, getPath]
        rw [getKey_setKey_self]
        exact ih c h
      | scalar s => simp [Node.getKey] at hk
      | arr xs => simp [Node.getKey] at hk
    | none => simp [getPath, hk] at h

theorem mapAt_eq_self_of_none (p : List String) (f : Node → Node) (n : Node)
    (h : getPath n p = none) : mapAt n p f = n := by
  induction p generalizing n with
  | nil => simp [getPath] at h
  | cons k rest ih =>
    cases hk : n.getKey k with
    | some c =>
      simp only [getPath, hk] at h
      simp only [mapAt, hk]
      rw [ih c h]
      exact setKey_getKey_self n k c hk
    | none => simp [mapAt, hk]

theorem mapAt_mapAt (p : List String) (f g : Node → Node) (n : Node) :
    mapAt (mapAt n p g) p f = mapAt n p (fun m => f (g m)) := by
  induction p generalizing n with
  | nil => rfl
  | cons k rest ih =>
    cases hk : n.getKey k with
    | some c =>
      cases n with
      | map kvs =>
        have h2 := getKey_setKey_self kvs k (mapAt c rest g)
        simp only [mapAt, hk, h2, setKey_setKey_same]
        rw [ih]
      | scalar s => simp [Node.getKey] at hk
      | arr xs => simp [Node.getKey] at hk
    | none => simp [mapAt, hk]

theorem mapAt_append (p q : List String) (f : Node → Node) (n : Node) :
    mapAt n (p ++ q) f = mapAt n p (fun m => mapAt m q f) := by
  induction p generalizing n with
  | nil => rfl
  | cons k rest ih =>
    cases hk : n.getKey k with
    | some c => simp [mapAt, hk, ih]
    | none => simp [mapAt, hk]

theorem getPath_mapAt_head_ne (a : String) (p : List String) (b : String)
    (q : List String) (f : Node → Node) (n : Node) (h : b ≠ a) :
    getPath (mapAt n (a :: p) f) (b :: q) = getPath n (b :: q) := by
  cases hk : n.getKey a with
  | some c =>
    simp only [mapAt, hk, getPath, getKey_setKey_ne n a b _ h]
  | none => simp [mapAt, hk]

theorem getPath_mapAt_cons_some (a : String) (p q : List String) (f : Node → Node)
    (n c : Node) (h : n.getKey a = some c) :
    getPath (mapAt n (a :: p) f) (a :: q) = getPath (mapAt c p f) q := by
  cases n with
  | map kvs =>
    simp only [mapAt, h, getPath]
    rw [getKey_setKey_self]
  | scalar s => simp [Node.getKey] at h
  | arr xs => simp [Node.getKey] at h

theorem getPath_mapAt_ne (p q : List String) (f : Node → Node) (n : Node)
    (hl : p.length = q.length) (hne : p ≠ q) :
    getPath (mapAt n p f) q = getPath n q := by
  induction p generalizing n q with
  | nil =>
    cases q with
    | nil => exact absurd rfl hne
    | cons b q' => simp at hl
  | cons a p' ih =>
    cases q with
    | nil => simp at hl
    | cons b q' =>
      by_cases hab : b = a
      · subst hab
        cases hk : n.getKey b with
        | some c =>
          rw [getPath_mapAt_cons_some b p' q' f n c hk]
          have hpq : p' ≠ q' := fun h => hne (by rw [h])
          simp only [getPath, hk]
          exact ih q' c (by simpa using hl) hpq
        | none => simp [mapAt, hk]
      · exact getPath_mapAt_head_ne a p' b q' f n hab

theorem getPath_mapAt_self_of_append (p q : List String) (f : Node → Node)
    (n m : Node) (h : getPath n p = some m) :
    getPath (mapAt n (p ++ q) f) p = some (mapAt m q f) := by
  rw [mapAt_append]
  exact getPath_mapAt_self p _ n m h

/-! ## Selection soundness -/

theorem selectFrom_sound (segs : List Seg) (n : Node) (p : List String)
    (q : List String) (m : Node) (h : (q, m) ∈ selectFrom n p segs) :
    ∃ r, q = p ++ r ∧ getPath n r = some m := by
  induction segs generalizing n p with
  | nil =>
    simp [selectFrom] at h
    exact ⟨[], by simp [h.1, h.2], by simp [h.2, getPath]⟩
  | cons s segs ih =>
    cases s with
    | key k =>
      cases hk : n.getKey k with
      | some c =>
        simp only [selectFrom, hk] at h
        obtain ⟨r', hq, hg⟩ := ih c (p ++ [k]) h
        exact ⟨k :: r', by simp [hq], by simp [getPath, hk, hg]⟩
      | none => simp [selectFrom, hk] at h
    | wildcard =>
      cases n with
      | map kvs =>
        simp only [selectFrom, List.mem_flatMap] at h
        obtain ⟨kv, hkv, hmem⟩ := h
        obtain ⟨r', hq, hg⟩ := ih kv.2 (p ++ [kv.1]) hmem
        have hlk : lookupKey kvs kv.1 = some kv.2 := by
          have := (mem_dedupKeys kvs kv.1 kv.2).mp (by
            cases kv; exact hkv)
          exact this
        exact ⟨kv.1 :: r', by simp [hq], by simp [getPath, Node.getKey, hlk, hg]⟩
      | scalar s => simp [selectFrom] at h
      | arr xs => simp [selectFrom] at h
    | filter pr =>
      by_cases he : evalPred pr n
      · simp only [selectFrom, if_pos he] at h
        exact ih n p h
      · simp [selectFrom, he] at h

theorem select_sound (d : Node) (segs : List Seg) (q : List String) (m : Node)
    (h : (q, m) ∈ select d segs) : getPath d q = some m := by
  obtain ⟨r, hq, hg⟩ := selectFrom_sound segs d [] q m h
  simpa [hq] using hg

/-! ## Selection characterizations -/

theorem mem_selectFrom_nil (n : Node) (p q : List String) (m : Node) :
    (q, m) ∈ selectFrom n p [] ↔ q = p ∧ m = n := by
  simp [selectFrom]

theorem mem_selectFrom_key (n : Node) (p : List String) (k : String)
    (segs : List Seg) (q : List String) (m : Node) :
    (q, m) ∈ selectFrom n p (.key k :: segs) ↔
      ∃ c, n.getKey k = some c ∧ (q, m) ∈ selectFrom c (p ++ [k]) segs := by
  cases hk : n.getKey k with
  | some c => simp [selectFrom, hk]
  | none => simp [selectFrom, hk]

theorem mem_selectFrom_wildcard (n : Node) (p : List String)
    (segs : List Seg) (q : List String) (m : Node) :
    (q, m) ∈ selectFrom n p (.wildcard :: segs) ↔
      ∃ a c, n.getKey a = some c ∧ (q, m) ∈ selectFrom c (p ++ [a]) segs := by
  cases n with
  | map kvs =>
    simp only [selectFrom, List.mem_flatMap]
    constructor
    · rintro ⟨kv, hkv, hmem⟩
      cases kv with
      | mk a c =>
        exact ⟨a, c, by
          simpa [Node.getKey] using (mem_dedupKeys kvs a c).mp hkv, hmem⟩
    · rintro ⟨a, c, hk, hmem⟩
      exact ⟨(a, c), (mem_dedupKeys kvs a c).mpr (by simpa [Node.getKey] using hk), hmem⟩
  | scalar s => simp [selectFrom, Node.getKey]
  | arr xs => simp [selectFrom, Node.getKey]

theorem mem_selectFrom_filter (n : Node) (p : List String) (pr : Pred)
    (segs : List Seg) (q : List String) (m : Node) :
    (q, m) ∈ selectFrom n p (.filter pr :: segs) ↔
      evalPred pr n = true ∧ (q, m) ∈ selectFrom n p segs := by
  by_cases he : evalPred pr n
  · simp [selectFrom, he]
  · simp [selectFrom, he]

theorem getPath_cons (n : Node) (k : String) (rest : List String) :
    getPath n (k :: rest) =
      match n.getKey k with
      | some c => getPath c rest
      | none => none := rfl

theorem mem_select_segs1 (d : Node) (q : List String) (m : Node) :
    (q, m) ∈ select d segs1 ↔
      ∃ a b, q = ["paths", a, b] ∧ getPath d ["paths", a, b] = some m ∧
        evalPred pred1 m = true := by
  simp only [select, segs1, mem_selectFrom_key, mem_selectFrom_wildcard,
    mem_selectFrom_filter, mem_selectFrom_nil, List.nil_append]
  constructor
  · rintro ⟨c, hc, a, ca, hca, b, cb, hcb, hev, hq, hm⟩
    subst hm
    exact ⟨a, b, hq, by simp [getPath, hc, hca, hcb], hev⟩
  · rintro ⟨a, b, hq, hg, hev⟩
    cases hc : d.getKey "paths" with
    | some c =>
      simp only [getPath_cons, hc] at hg
      cases hca : c.getKey a with
      | some ca =>
        simp only [hca] at hg
        cases hcb : ca.getKey b with
        | some cb =>
          simp only [hcb, getPath] at hg
          rw [Option.some_inj] at hg
          subst hg
          exact ⟨c, rfl, a, ca, hca, b, cb, hcb, hev, hq, rfl⟩
        | none => simp [hcb] at hg
      | none => simp [hca] at hg
    | none => simp [getPath_cons, hc] at hg

theorem mem_select_segs4 (d : Node) (q : List String) (m : Node) :
    (q, m) ∈ select d segs4 ↔
      ∃ a b mo, q = ["paths", a, b, "security"] ∧
        getPath d ["paths", a, b] = some mo ∧ evalPred pred4 mo = true ∧
        mo.getKey "security" = some m := by
  simp only [select, segs4, mem_selectFrom_key, mem_selectFrom_wildcard,
    mem_selectFrom_filter, mem_selectFrom_nil, List.nil_append]
  constructor
  · rintro ⟨c, hc, a, ca, hca, b, cb, hcb, hev, cs, hcs, hq, hm⟩
    subst hm
    exact ⟨a, b, cb, hq, by simp [getPath, hc, hca, hcb], hev, hcs⟩
  · rintro ⟨a, b, mo, hq, hg, hev, hcs⟩
    cases hc : d.getKey "paths" with
    | some c =>
      simp only [getPath_cons, hc] at hg
      cases hca : c.getKey a with
      | some ca =>
        simp only [hca] at hg
        cases hcb : ca.getKey b with
        | some cb =>
          simp only [hcb, getPath] at hg
          rw [Option.some_inj] at hg
          subst hg
          exact ⟨c, rfl, a, ca, hca, b, cb, hcb, hev, m, hcs, hq, rfl⟩
        | none => simp [hcb] at hg
      | none => simp [hca] at hg
    | none => simp [getPath_cons, hc] at hg

theorem select_segs2_eq (d : Node) : select d segs2 = [([], d)] := rfl

theorem select_segs3_eq (d : Node) :
    select d segs3 =
      match getPath d ["components", "securitySchemes"] with
      | some m => [(["components", "securitySchemes"], m)]
      | none => [] := by
  cases hc : d.getKey "components" with
  | some c =>
    cases hcs : c.getKey "securitySchemes" with
    | some m =>
      simp [select, segs3, selectFrom, hc, hcs, getPath]
    | none =>
      simp [select, segs3, selectFrom, hc, hcs, getPath]
  | none =>
    simp [select, segs3, selectFrom, hc, getPath]

/-! ## Fold helpers -/

theorem foldl_preserve {α β : Type} (step : α → β → α) (P : α → Prop)
    (L : List β) (x : α) (hstep : ∀ y b, b ∈ L → P y → P (step y b)) (h0 : P x) :
    P (L.foldl step x) := by
  induction L generalizing x with
  | nil => exact h0
  | cons b L ih =>
    exact ih (step x b)
      (fun y b' hb' hy => hstep y b' (List.mem_cons_of_mem _ hb') hy)
      (hstep x b (List.mem_cons_self _ _) h0)

theorem foldl_establish {α β : Type} (step : α → β → α) (P I : α → Prop)
    (G : β → Prop) (q : β)
    (hIstep : ∀ y b, G b → I y → I (step y b))
    (hEst : ∀ y, I y → P (step y q))
    (hPres : ∀ y b, G b → P y → P (step y b)) :
    ∀ (L : List β) (x : α), q ∈ L → (∀ b, b ∈ L → G b) → I x →
      P (L.foldl step x) := by
  intro L
  induction L with
  | nil => intro x hq _ _; cases hq
  | cons b L ih =>
    intro x hq hG hI
    rcases List.mem_cons.mp hq with hqb | hqL
    · subst hqb
      refine foldl_preserve step P L (step x q) ?_ (hEst x hI)
      intro y b' hb' hy
      exact hPres y b' (hG b' (List.mem_cons_of_mem _ hb')) hy
    · exact ih (step x b) hqL (fun b' hb' => hG b' (List.mem_cons_of_mem _ hb'))
        (hIstep x b (hG b (List.mem_cons_self _ _)) hI)

/-! ## Shallow-merge lemmas -/

theorem lookupKey_eq_none_of_keys (kvs : List (String × Node)) (k : String)
    (h : k ∉ kvs.map Prod.fst) : lookupKey kvs k = none := by
  induction kvs with
  | nil => rfl
  | cons kv rest ih =>
    simp only [List.map_cons, List.mem_cons] at h
    push_neg at h
    simp only [lookupKey, if_neg (fun h' : kv.1 = k => h.1 h'.symm)]
    exact ih h.2

theorem lookupKey_foldl_setKeyList_absent (ukvs : List (String × Node))
    (kvs : List (String × Node)) (b : String) (h : ∀ kv ∈ ukvs, kv.1 ≠ b) :
    lookupKey (ukvs.foldl (fun acc kv => setKeyList acc kv.1 kv.2) kvs) b =
      lookupKey kvs b := by
  induction ukvs generalizing kvs with
  | nil => rfl
  | cons kv rest ih =>
    simp only [List.foldl_cons]
    rw [ih _ (fun kv' hkv' => h kv' (List.mem_cons_of_mem _ hkv'))]
    exact lookupKey_setKeyList_ne kvs kv.1 b kv.2
      (fun h' => h kv (List.mem_cons_self _ _) (h'.symm))

theorem getKey_mergeShallow_absent (n : Node) (ukvs : List (String × Node))
    (b : String) (h : ∀ kv ∈ ukvs, kv.1 ≠ b) :
    (mergeShallow n (.map ukvs)).getKey b = n.getKey b := by
  cases n with
  | map kvs =>
    simp only [mergeShallow, Node.getKey]
    exact lookupKey_foldl_setKeyList_absent ukvs kvs b h
  | scalar s =>
    simp only [mergeShallow, Node.getKey]
    exact lookupKey_eq_none_of_keys ukvs b (by
      intro hb
      rcases List.mem_map.mp hb with ⟨kv, hkv, hfst⟩
      exact h kv hkv hfst)
  | arr xs =>
    simp only [mergeShallow, Node.getKey]
    exact lookupKey_eq_none_of_keys ukvs b (by
      intro hb
      rcases List.mem_map.mp hb with ⟨kv, hkv, hfst⟩
      exact h kv hkv hfst)

theorem getKey_mergeShallow_single (n v : Node) (k : String) :
    (mergeShallow n (.map [(k, v)])).getKey k = some v := by
  cases n with
  | map kvs =>
    simp only [mergeShallow, List.foldl_cons, List.foldl_nil, Node.getKey]
    exact lookupKey_setKeyList_self kvs k v
  | scalar s => simp [mergeShallow, Node.getKey, lookupKey]
  | arr xs => simp [mergeShallow, Node.getKey, lookupKey]

theorem getKey_mergeShallow_map (kvs ukvs : List (String × Node))
    (hnd : (ukvs.map Prod.fst).Nodup) (k : String) :
    (mergeShallow (.map kvs) (.map ukvs)).getKey k =
      match lookupKey ukvs k with
      | some v => some v
      | none => lookupKey kvs k := by
  induction ukvs generalizing kvs with
  | nil => simp [mergeShallow, Node.getKey, lookupKey]
  | cons kv rest ih =>
    cases kv with
    | mk ku vu =>
      simp only [List.map_cons, List.nodup_cons] at hnd
      have hmerge : mergeShallow (Node.map kvs) (Node.map ((ku, vu) :: rest)) =
          mergeShallow (Node.map (setKeyList kvs ku vu)) (Node.map rest) := by
        simp [mergeShallow]
      rw [hmerge, ih _ hnd.2]
      by_cases hk : ku = k
      · subst hk
        have : lookupKey rest ku = none :=
          lookupKey_eq_none_of_keys rest ku hnd.1
        simp [this, lookupKey, lookupKey_setKeyList_self]
      · simp [lookupKey, hk, lookupKey_setKeyList_ne kvs ku k vu (fun h' => hk h'.symm)]

/-! ## Effect and frame lemmas for the four actions -/

theorem actA1_eq (d : Node) :
    actA1 d = ((select d segs1).map Prod.fst).foldl
      (fun acc p => updateAt acc p upd1) d := rfl

theorem actA2_eq (d : Node) : actA2 d = mergeShallow d upd2 := rfl

theorem actA4_eq (d : Node) :
    actA4 d = ((select d segs4).map Prod.fst).foldl
      (fun acc p => removeAt acc p) d := rfl

theorem getPath_eq_of_getKey_eq (x y : Node) (b : String) (q : List String)
    (h : x.getKey b = y.getKey b) : getPath x (b :: q) = getPath y (b :: q) := by
  rw [getPath_cons, getPath_cons, h]

theorem actA2_getKey_security (d : Node) :
    (actA2 d).getKey "security" = some globalReq :=
  getKey_mergeShallow_single d globalReq "security"

theorem actA2_getPath_ne (d : Node) (b : String) (q : List String)
    (hb : b ≠ "security") : getPath (actA2 d) (b :: q) = getPath d (b :: q) := by
  refine getPath_eq_of_getKey_eq _ _ _ _ ?_
  rw [actA2_eq]
  exact getKey_mergeShallow_absent d _ b (by
    intro kv hkv
    simp only [upd2, List.mem_singleton] at hkv
    rw [hkv]
    exact fun h => hb h.symm)

theorem actA3_eq (d : Node) :
    actA3 d =
      match getPath d ["components", "securitySchemes"] with
      | some _ => updateAt d ["components", "securitySchemes"] upd3
      | none => d := by
  show applyParsed d segs3 action3 = _
  rw [applyParsed]
  cases h : getPath d ["components", "securitySchemes"] with
  | some m =>
    simp only [select_segs3_eq, h, List.map_cons, List.map_nil,
      List.foldl_cons, List.foldl_nil]
    rfl
  | none =>
    simp only [select_segs3_eq, h, List.map_nil, List.foldl_nil]
    rfl

theorem actA3_getPath_head_ne (d : Node) (b : String) (q : List String)
    (hb : b ≠ "components") : getPath (actA3 d) (b :: q) = getPath d (b :: q) := by
  rw [actA3_eq]
  cases h : getPath d ["components", "securitySchemes"] with
  | some m =>
    rw [updateAt_eq_mapAt]
    exact getPath_mapAt_head_ne _ _ _ _ _ _ hb
  | none => rfl

theorem select_segs1_shape (d : Node) (pn : List String × Node)
    (h : pn ∈ select d segs1) : ∃ a b m, pn = (["paths", a, b], m) := by
  cases pn with
  | mk q m =>
    obtain ⟨a, b, hq, -, -⟩ := (mem_select_segs1 d q m).mp h
    exact ⟨a, b, m, by rw [hq]⟩

theorem select_segs4_shape (d : Node) (pn : List String × Node)
    (h : pn ∈ select d segs4) : ∃ a b m, pn = (["paths", a, b, "security"], m) := by
  cases pn with
  | mk q m =>
    obtain ⟨a, b, mo, hq, -, -, -⟩ := (mem_select_segs4 d q m).mp h
    exact ⟨a, b, m, by rw [hq]⟩

theorem sel1_paths_shape (d : Node) :
    ∀ p, p ∈ (select d segs1).map Prod.fst → ∃ a b, p = ["paths", a, b] := by
  intro p hp
  obtain ⟨pn, hpn, hfst⟩ := List.mem_map.mp hp
  obtain ⟨a, b, m, hsh⟩ := select_segs1_shape d pn hpn
  subst hsh
  exact ⟨a, b, hfst.symm⟩

theorem sel4_paths_shape (d : Node) :
    ∀ p, p ∈ (select d segs4).map Prod.fst →
      ∃ a b, p = ["paths", a, b, "security"] := by
  intro p hp
  obtain ⟨pn, hpn, hfst⟩ := List.mem_map.mp hp
  obtain ⟨a, b, m, hsh⟩ := select_segs4_shape d pn hpn
  subst hsh
  exact ⟨a, b, hfst.symm⟩

theorem actA1_getPath_head_ne (d : Node) (b : String) (q : List String)
    (hb : b ≠ "paths") : getPath (actA1 d) (b :: q) = getPath d (b :: q) := by
  rw [actA1_eq]
  refine foldl_preserve _ (fun x => getPath x (b :: q) = getPath d (b :: q)) _ d ?_ rfl
  intro y p hp hy
  obtain ⟨a', b', hsh⟩ := sel1_paths_shape d p hp
  subst hsh
  rw [updateAt_eq_mapAt, getPath_mapAt_head_ne _ _ _ _ _ _ hb]
  exact hy

theorem actA4_getPath_head_ne (d : Node) (b : String) (q : List String)
    (hb : b ≠ "paths") : getPath (actA4 d) (b :: q) = getPath d (b :: q) := by
  rw [actA4_eq]
  refine foldl_preserve _ (fun x => getPath x (b :: q) = getPath d (b :: q)) _ d ?_ rfl
  intro y p hp hy
  obtain ⟨a', b', hsh⟩ := sel4_paths_shape d p hp
  subst hsh
  rw [show (["paths", a', b', "security"] : List String) =
    ["paths", a', b'] ++ ["security"] from rfl, removeAt_eq_mapAt,
    getPath_mapAt_head_ne _ _ _ _ _ _ hb]
  exact hy

theorem actA1_op_no_security (d : Node) (a b : String) (n : Node)
    (hop : getPath d ["paths", a, b] = some n)
    (hsec : n.getKey "security" = none) :
    ∃ n', getPath (actA1 d) ["paths", a, b] = some n' ∧
      n'.getKey "security" = some (.arr [emptyReq]) := by
  rw [actA1_eq]
  have hev : evalPred pred1 n = true := by
    simp [pred1, evalPred, hsec]
  have hmem : ["paths", a, b] ∈ (select d segs1).map Prod.fst :=
    List.mem_map.mpr ⟨(["paths", a, b], n),
      (mem_select_segs1 d _ n).mpr ⟨a, b, rfl, hop, hev⟩, rfl⟩
  refine foldl_establish (fun acc p => updateAt acc p upd1)
    (fun x => ∃ n', getPath x ["paths", a, b] = some n' ∧
      n'.getKey "security" = some (.arr [emptyReq]))
    (fun x => (getPath x ["paths", a, b]).isSome)
    (fun p => ∃ a' b', p = ["paths", a', b'])
    ["paths", a, b] ?_ ?_ ?_ ((select d segs1).map Prod.fst) d hmem
    (sel1_paths_shape d)
    (by show (getPath d ["paths", a, b]).isSome = true; rw [hop]; rfl)
  · rintro y p ⟨a', b', rfl⟩ hy
    obtain ⟨c, hc⟩ := Option.isSome_iff_exists.mp hy
    beta_reduce
    rw [updateAt_eq_mapAt]
    by_cases hpq : (["paths", a', b'] : List String) = ["paths", a, b]
    · rw [hpq, getPath_mapAt_self _ _ _ _ hc]; rfl
    · rw [getPath_mapAt_ne _ _ _ _ (by simp) hpq, hc]; rfl
  · intro y hy
    obtain ⟨c, hc⟩ := Option.isSome_iff_exists.mp hy
    beta_reduce
    rw [updateAt_eq_mapAt]
    refine ⟨mergeShallow c upd1, getPath_mapAt_self _ _ _ _ hc, ?_⟩
    exact getKey_mergeShallow_single c _ "security"
  · rintro y p ⟨a', b', rfl⟩ ⟨n', hn', hn'sec⟩
    beta_reduce
    rw [updateAt_eq_mapAt]
    by_cases hpq : (["paths", a', b'] : List String) = ["paths", a, b]
    · rw [hpq]
      refine ⟨mergeShallow n' upd1, getPath_mapAt_self _ _ _ _ hn', ?_⟩
      exact getKey_mergeShallow_single n' _ "security"
    · rw [getPath_mapAt_ne _ _ _ _ (by simp) hpq]
      exact ⟨n', hn', hn'sec⟩

theorem actA1_op_frame (d : Node) (a b : String) (n : Node)
    (hop : getPath d ["paths", a, b] = some n)
    (hev : evalPred pred1 n = false) :
    getPath (actA1 d) ["paths", a, b] = some n := by
  rw [actA1_eq]
  refine foldl_preserve _ (fun x => getPath x ["paths", a, b] = some n) _ d ?_ hop
  intro y p hp hy
  obtain ⟨pn, hpn, hfst⟩ := List.mem_map.mp hp
  cases pn with
  | mk pq pm =>
    simp only at hfst
    subst hfst
    obtain ⟨a2, b2, hq, hg, hev'⟩ := (mem_select_segs1 d pq pm).mp hpn
    subst hq
    rw [updateAt_eq_mapAt]
    by_cases hpq : (["paths", a2, b2] : List String) = ["paths", a, b]
    · exfalso
      rw [hpq, hop, Option.some_inj] at hg
      subst hg
      rw [hev'] at hev
      cases hev
    · rw [getPath_mapAt_ne _ _ _ _ (by simp) hpq]
      exact hy

theorem actA4_op_strip (d : Node) (a b : String) (n : Node)
    (hop : getPath d ["paths", a, b] = some n)
    (hev : evalPred pred4 n = true) :
    (getPath (actA4 d) ["paths", a, b]).isSome ∧
      getPath (actA4 d) ["paths", a, b, "security"] = none := by
  rw [actA4_eq]
  have happ : (["paths", a, b, "security"] : List String) =
      ["paths", a, b] ++ ["security"] := rfl
  have hstep : ∀ (y : Node) (p : List String),
      (∃ a' b', p = ["paths", a', b', "security"]) →
      ((getPath y ["paths", a, b]).isSome ∧
        getPath y ["paths", a, b, "security"] = none) →
      ((getPath (removeAt y p) ["paths", a, b]).isSome ∧
        getPath (removeAt y p) ["paths", a, b, "security"] = none) := by
    rintro y p ⟨a', b', rfl⟩ ⟨hy1, hy2⟩
    obtain ⟨c, hc⟩ := Option.isSome_iff_exists.mp hy1
    rw [show (["paths", a', b', "security"] : List String) =
      ["paths", a', b'] ++ ["security"] from rfl, removeAt_eq_mapAt]
    by_cases hpq : (["paths", a', b'] : List String) = ["paths", a, b]
    · rw [hpq]
      constructor
      · rw [getPath_mapAt_self _ _ _ _ hc]; rfl
      · rw [happ, getPath_append, getPath_mapAt_self _ _ _ _ hc]
        simp [getPath_singleton, getKey_removeKey_self]
    · constructor
      · rw [getPath_mapAt_ne _ _ _ _ (by simp) hpq, hc]; rfl
      · rw [happ, getPath_append, getPath_mapAt_ne _ _ _ _ (by simp) hpq,
          ← getPath_append, ← happ]
        exact hy2
  cases hsec : n.getKey "security" with
  | some s =>
    have hmem : ["paths", a, b, "security"] ∈ (select d segs4).map Prod.fst :=
      List.mem_map.mpr ⟨(["paths", a, b, "security"], s),
        (mem_select_segs4 d _ s).mpr ⟨a, b, n, rfl, hop, hev, hsec⟩, rfl⟩
    refine foldl_establish (fun acc p => removeAt acc p)
      (fun x => (getPath x ["paths", a, b]).isSome ∧
        getPath x ["paths", a, b, "security"] = none)
      (fun x => (getPath x ["paths", a, b]).isSome)
      (fun p => ∃ a' b', p = ["paths", a', b', "security"])
      ["paths", a, b, "security"] ?_ ?_ ?_ ((select d segs4).map Prod.fst) d hmem
      (sel4_paths_shape d)
      (by show (getPath d ["paths", a, b]).isSome = true; rw [hop]; rfl)
    · rintro y p ⟨a', b', rfl⟩ hy
      obtain ⟨c, hc⟩ := Option.isSome_iff_exists.mp hy
      beta_reduce
      rw [show (["paths", a', b', "security"] : List String) =
        ["paths", a', b'] ++ ["security"] from rfl, removeAt_eq_mapAt]
      by_cases hpq : (["paths", a', b'] : List String) = ["paths", a, b]
      · rw [hpq, getPath_mapAt_self _ _ _ _ hc]; rfl
      · rw [getPath_mapAt_ne _ _ _ _ (by simp) hpq, hc]; rfl
    · intro y hy
      obtain ⟨c, hc⟩ := Option.isSome_iff_exists.mp hy
      beta_reduce
      rw [show (["paths", a, b, "security"] : List String) =
        ["paths", a, b] ++ ["security"] from rfl, removeAt_eq_mapAt]
      constructor
      · rw [getPath_mapAt_self _ _ _ _ hc]; rfl
      · rw [getPath_append, getPath_mapAt_self _ _ _ _ hc]
        simp [getPath_singleton, getKey_removeKey_self]
    · rintro y p hG hy
      beta_reduce
      exact hstep y p hG hy
  | none =>
    refine foldl_preserve _ (fun x => (getPath x ["paths", a, b]).isSome ∧
      getPath x ["paths", a, b, "security"] = none) _ d ?_ ?_
    · rintro y p hp hy
      beta_reduce
      exact hstep y p (sel4_paths_shape d p hp) hy
    · refine ⟨by show (getPath d ["paths", a, b]).isSome = true; rw [hop]; rfl, ?_⟩
      rw [happ, getPath_append, hop]
      simp [getPath_singleton, hsec]

theorem actA4_op_frame (x : Node) (a b : String) (n : Node)
    (hop : getPath x ["paths", a, b] = some n)
    (hev : evalPred pred4 n = false) :
    getPath (actA4 x) ["paths", a, b] = some n := by
  rw [actA4_eq]
  refine foldl_preserve _ (fun y => getPath y ["paths", a, b] = some n) _ x ?_ hop
  intro y p hp hy
  obtain ⟨pn, hpn, hfst⟩ := List.mem_map.mp hp
  cases pn with
  | mk pq pm =>
    simp only at hfst
    subst hfst
    obtain ⟨a2, b2, mo, hq, hg, hev', hsec'⟩ := (mem_select_segs4 x pq pm).mp hpn
    subst hq
    rw [show (["paths", a2, b2, "security"] : List String) =
      ["paths", a2, b2] ++ ["security"] from rfl, removeAt_eq_mapAt]
    by_cases hpq : (["paths", a2, b2] : List String) = ["paths", a, b]
    · exfalso
      rw [hpq, hop, Option.some_inj] at hg
      subst hg
      rw [hev'] at hev
      cases hev
    · rw [getPath_mapAt_ne _ _ _ _ (by simp) hpq]
      exact hy

theorem apply_action1_eq (d : Node) : apply d [action1] = .ok (actA1 d) := by
  simp only [apply, applyAction, parseTarget_action1]
  rfl

theorem apply_action2_eq (d : Node) : apply d [action2] = .ok (actA2 d) := by
  simp only [apply, applyAction, parseTarget_action2]
  rfl

theorem apply_action3_eq (d : Node) : apply d [action3] = .ok (actA3 d) := by
  simp only [apply, applyAction, parseTarget_action3]
  rfl

theorem apply_append (d : Node) (l1 l2 : List Action) :
    apply d (l1 ++ l2) =
      match apply d l1 with
      | .ok d' => apply d' l2
      | .parseError d' => .parseError d' := by
  induction l1 generalizing d with
  | nil => rfl
  | cons a l1 ih =>
    rw [List.cons_append]
    simp only [apply]
    cases h : applyAction d a with
    | some d2 =>
      simp only [h]
      exact ih d2
    | none => simp only [h]

/-! ## The claims -/

/-- **C3**: for every specification document, applying action 1 alone gives
every operation under `paths` that lacked a `security` field the value
`security == [{}]`: a security array containing exactly one empty
requirement mapping. -/
theorem claim_C3 (d : Node) (a b : String) (n : Node)
    (hop : getPath d ["paths", a, b] = some n)
    (hsec : n.getKey "security" = none) :
    ∃ d' n', apply d [action1] = .ok d' ∧
      getPath d' ["paths", a, b] = some n' ∧
      n'.getKey "security" = some (.arr [.map []]) := by
  obtain ⟨n', h1, h2⟩ := actA1_op_no_security d a b n hop hsec
  exact ⟨actA1 d, n', apply_action1_eq d, h1, h2⟩

theorem claim_C3_witness :
    ∃ d' n',
      apply (Node.map [("paths", Node.map [("/x", Node.map [("get", Node.map [])])])])
        [action1] = .ok d' ∧
      getPath d' ["paths", "/x", "get"] = some n' ∧
      n'.getKey "security" = some (.arr [.map []]) :=
  claim_C3 _ "/x" "get" (Node.map []) rfl rfl

/-- **C4**: for every specification document, applying action 2 alone sets
the document root's `security` key to `[{access_token: []}]`, whether or not
the root previously had a `security` key and whatever its previous value
was. -/
theorem claim_C4 (d : Node) :
    ∃ d', apply d [action2] = .ok d' ∧
      d'.getKey "security" = some (.arr [.map [("access_token", .arr [])]]) :=
  ⟨actA2 d, apply_action2_eq d, actA2_getKey_security d⟩

/-- **C5**: for every specification document containing a
`components.securitySchemes` mapping, after applying action 3 the entry
`components.securitySchemes.access_token` exists and has `type: http` and
`scheme: bearer`. -/
theorem claim_C5 (d m : Node)
    (hcs : getPath d ["components", "securitySchemes"] = some m) :
    ∃ d' v, apply d [action3] = .ok d' ∧
      getPath d' ["components", "securitySchemes", "access_token"] = some v ∧
      v.getKey "type" = some (.scalar "http") ∧
      v.getKey "scheme" = some (.scalar "bearer") := by
  refine ⟨actA3 d, schemeVal, apply_action3_eq d, ?_, rfl, rfl⟩
  simp only [actA3_eq, hcs, updateAt_eq_mapAt]
  rw [show (["components", "securitySchemes", "access_token"] : List String) =
    ["components", "securitySchemes"] ++ ["access_token"] from rfl,
    getPath_append, getPath_mapAt_self _ _ _ _ hcs]
  simp only [Option.some_bind, getPath_singleton]
  exact getKey_mergeShallow_single m schemeVal "access_token"

theorem claim_C5_witness :
    ∃ d' v,
      apply (Node.map [("components", Node.map [("securitySchemes", Node.map [])])])
        [action3] = .ok d' ∧
      getPath d' ["components", "securitySchemes", "access_token"] = some v ∧
      v.getKey "type" = some (.scalar "http") ∧
      v.getKey "scheme" = some (.scalar "bearer") :=
  claim_C5 _ (Node.map []) rfl

/-- **C7**: an action whose target expression matches zero locations in the
current document is a no-op, not an error: the document after the action is
identical, and the remaining actions are still processed. -/
theorem claim_C7 (d : Node) (a : Action) (rest : List Action) (segs : List Seg)
    (hp : parseTarget a.target = some segs) (hz : select d segs = []) :
    applyAction d a = some d ∧ apply d (a :: rest) = apply d rest := by
  have h1 : applyAction d a = some d := by
    simp only [applyAction, hp, applyParsed, hz, List.map_nil, List.foldl_nil]
    cases a.update with
    | some u => rfl
    | none => simp
  refine ⟨h1, ?_⟩
  simp only [apply, h1]

theorem claim_C7_witness :
    applyAction (Node.map []) action3 = some (Node.map []) ∧
      apply (Node.map []) [action3] = apply (Node.map []) [] :=
  claim_C7 (Node.map []) action3 [] segs3 parseTarget_action3 rfl

/-- **C8**: for every `update` action and every matched location, the merge
is shallow and key-wise: each key present in the update value replaces the
existing value of that key at the location entirely, and every key of the
location not mentioned in the update value keeps its previous value. -/
theorem claim_C8 (d : Node) (segs : List Seg) (q : List String)
    (kvs ukvs : List (String × Node))
    (hloc : (q, Node.map kvs) ∈ select d segs)
    (hnd : (ukvs.map Prod.fst).Nodup) :
    ∃ m', getPath (updateAt d q (.map ukvs)) q = some m' ∧
      (∀ k v, lookupKey ukvs k = some v → m'.getKey k = some v) ∧
      (∀ k, lookupKey ukvs k = none → m'.getKey k = lookupKey kvs k) := by
  have hg := select_sound d segs q (Node.map kvs) hloc
  rw [updateAt_eq_mapAt]
  refine ⟨mergeShallow (.map kvs) (.map ukvs), getPath_mapAt_self _ _ _ _ hg, ?_, ?_⟩
  · intro k v hk
    rw [getKey_mergeShallow_map kvs ukvs hnd k, hk]
  · intro k hk
    rw [getKey_mergeShallow_map kvs ukvs hnd k, hk]

theorem claim_C8_witness :
    ∃ m',
      getPath
        (updateAt (Node.map [("root", Node.map [("keep", Node.scalar "old"), ("hit", Node.arr [Node.scalar "a"])])])
          ["root"] (.map [("hit", Node.scalar "new")]))
        ["root"] = some m' ∧
      (∀ k v, lookupKey [("hit", Node.scalar "new")] k = some v → m'.getKey k = some v) ∧
      (∀ k, lookupKey [("hit", Node.scalar "new")] k = none →
        m'.getKey k = lookupKey [("keep", Node.scalar "old"), ("hit", Node.arr [Node.scalar "a"])] k) :=
  claim_C8 _ [.key "root"] ["root"]
    [("keep", Node.scalar "old"), ("hit", Node.arr [Node.scalar "a"])]
    [("hit", Node.scalar "new")]
    (List.mem_singleton.mpr rfl) (by simp)

/-- **C10**: after applying the full four-action sequence to any
specification document, the document root's `security` key equals
`[{access_token: []}]`: action 2 sets it, and actions 3 and 4 cannot undo it
because their targets never select the root's `security`. -/
theorem claim_C10 (d : Node) :
    ∃ d', apply d actions = .ok d' ∧
      d'.getKey "security" = some (.arr [.map [("access_token", .arr [])]]) := by
  refine ⟨fullApply d, apply_actions_eq d, ?_⟩
  show (actA4 (actA3 (actA2 (actA1 d)))).getKey "security" = some globalReq
  have h2 : (actA2 (actA1 d)).getKey "security" = some globalReq :=
    actA2_getKey_security _
  have h3 : (actA3 (actA2 (actA1 d))).getKey "security" = some globalReq := by
    rw [← getPath_singleton, actA3_getPath_head_ne _ _ _ (by decide), getPath_singleton]
    exact h2
  rw [← getPath_singleton, actA4_getPath_head_ne _ _ _ (by decide), getPath_singleton]
  exact h3

/-- **C2**: an operation whose original `security` array contains a mapping
keyed `customer_session` is untouched by the full four-action sequence: it
keeps its original `security` array (indeed the whole operation object is
unchanged). -/
theorem claim_C2 (d : Node) (a b : String) (n : Node) (xs : List Node) (e : Node)
    (hop : getPath d ["paths", a, b] = some n)
    (hsec : n.getKey "security" = some (.arr xs))
    (he : e ∈ xs) (hcs : (e.getKey "customer_session").isSome) :
    ∃ d', apply d actions = .ok d' ∧
      getPath d' ["paths", a, b] = some n ∧
      n.getKey "security" = some (.arr xs) := by
  have hevcs : evalPred (.fieldElemMatch "security" (.hasField "customer_session")) n
      = true := by
    simp only [evalPred, hsec]
    exact List.any_eq_true.mpr ⟨e, he, hcs⟩
  have hev1 : evalPred pred1 n = false := by
    simp [pred1, evalPred, hsec]
  have hev4 : evalPred pred4 n = false := by
    have h : evalPred pred4 n =
        !evalPred (.fieldElemMatch "security" (.hasField "customer_session")) n := rfl
    rw [h, hevcs]
    rfl
  have h1 : getPath (actA1 d) ["paths", a, b] = some n :=
    actA1_op_frame d a b n hop hev1
  have h2 : getPath (actA2 (actA1 d)) ["paths", a, b] = some n := by
    rw [actA2_getPath_ne _ _ _ (by decide)]
    exact h1
  have h3 : getPath (actA3 (actA2 (actA1 d))) ["paths", a, b] = some n := by
    rw [actA3_getPath_head_ne _ _ _ (by decide)]
    exact h2
  exact ⟨fullApply d, apply_actions_eq d,
    actA4_op_frame _ a b n h3 hev4, hsec⟩

theorem claim_C2_witness :
    ∃ d',
      apply (Node.map [("paths", Node.map [("/x", Node.map [("get",
        Node.map [("security", Node.arr [Node.map [("customer_session", Node.arr [])]])])])])])
        actions = .ok d' ∧
      getPath d' ["paths", "/x", "get"] =
        some (Node.map [("security", Node.arr [Node.map [("customer_session", Node.arr [])]])]) ∧
      (Node.map [("security", Node.arr [Node.map [("customer_session", Node.arr [])]])]).getKey
        "security" = some (.arr [Node.map [("customer_session", Node.arr [])]]) :=
  claim_C2 _ "/x" "get" _ [Node.map [("customer_session", Node.arr [])]]
    (Node.map [("customer_session", Node.arr [])]) rfl rfl
    (List.mem_singleton.mpr rfl) rfl

/-- **C1**: after applying the four overlay actions in order, every
operation under `paths` that originally had no `security` field ends with no
`security` field at all: action 4 removes the `[{}]` that action 1 added,
because action 4's target is re-evaluated against the mutated document. -/
theorem claim_C1 (d : Node) (a b : String) (n : Node)
    (hop : getPath d ["paths", a, b] = some n)
    (hsec : n.getKey "security" = none) :
    ∃ d' n', apply d actions = .ok d' ∧
      getPath d' ["paths", a, b] = some n' ∧
      n'.getKey "security" = none := by
  obtain ⟨n1, h1, h1sec⟩ := actA1_op_no_security d a b n hop hsec
  have h2 : getPath (actA2 (actA1 d)) ["paths", a, b] = some n1 := by
    rw [actA2_getPath_ne _ _ _ (by decide)]
    exact h1
  have h3 : getPath (actA3 (actA2 (actA1 d))) ["paths", a, b] = some n1 := by
    rw [actA3_getPath_head_ne _ _ _ (by decide)]
    exact h2
  have hev4 : evalPred pred4 n1 = true := by
    have h : evalPred pred4 n1 =
        !evalPred (.fieldElemMatch "security" (.hasField "customer_session")) n1 := rfl
    have hfe : evalPred (.fieldElemMatch "security" (.hasField "customer_session")) n1
        = false := by
      simp only [evalPred, h1sec]
      rfl
    rw [h, hfe]
    rfl
  obtain ⟨hsome, hnone⟩ := actA4_op_strip _ a b n1 h3 hev4
  obtain ⟨n', hn'⟩ := Option.isSome_iff_exists.mp hsome
  refine ⟨fullApply d, n', apply_actions_eq d, hn', ?_⟩
  rw [show (["paths", a, b, "security"] : List String) =
    ["paths", a, b] ++ ["security"] from rfl, getPath_append, hn'] at hnone
  simpa [getPath_singleton] using hnone

theorem claim_C1_witness :
    ∃ d' n',
      apply (Node.map [("paths", Node.map [("/x", Node.map [("get", Node.map [])])])])
        actions = .ok d' ∧
      getPath d' ["paths", "/x", "get"] = some n' ∧
      n'.getKey "security" = none :=
  claim_C1 _ "/x" "get" (Node.map []) rfl rfl

/-- **C9**: a `ParseError` on an action's target expression halts processing
of the remaining actions, surfaces to the caller, and the resulting document
is exactly the state produced by the last successfully applied action — no
rollback of earlier actions is performed. -/
theorem claim_C9 (d d' : Node) (pre rest : List Action) (bad : Action)
    (hpre : apply d pre = .ok d') (hbad : parseTarget bad.target = none) :
    apply d (pre ++ bad :: rest) = .parseError d' := by
  rw [apply_append, hpre]
  show apply d' (bad :: rest) = _
  simp only [apply, applyAction, hbad]

theorem claim_C9_witness :
    apply (Node.map []) ([action2] ++ (⟨"nope", none, true⟩ : Action) :: [action1]) =
      .parseError (actA2 (Node.map [])) :=
  claim_C9 (Node.map []) (actA2 (Node.map [])) [action2] [action1]
    ⟨"nope", none, true⟩ rfl rfl

/-! ## Well-formedness: inversion and preservation -/

theorem lookupKey_mem (kvs : List (String × Node)) (k : String) (v : Node)
    (h : lookupKey kvs k = some v) : (k, v) ∈ kvs := by
  induction kvs with
  | nil => cases h
  | cons kv rest ih =>
    cases kv with
    | mk k1 v1 =>
      by_cases hk : k1 = k
      · subst hk
        simp [lookupKey] at h
        subst h
        exact List.mem_cons_self _ _
      · simp only [lookupKey, if_neg hk] at h
        exact List.mem_cons_of_mem _ (ih h)

theorem mem_lookupKey_of_nodup (kvs : List (String × Node)) (k : String) (v : Node)
    (hnd : (kvs.map Prod.fst).Nodup) (h : (k, v) ∈ kvs) :
    lookupKey kvs k = some v := by
  induction kvs with
  | nil => cases h
  | cons kv rest ih =>
    cases kv with
    | mk k1 v1 =>
      simp only [List.map_cons, List.nodup_cons] at hnd
      rcases List.mem_cons.mp h with h1 | h1
      · cases h1
        simp [lookupKey]
      · have hk : ¬k1 = k := by
          intro hk
          subst hk
          exact hnd.1 (List.mem_map.mpr ⟨(k1, v), h1, rfl⟩)
        simp only [lookupKey, if_neg hk]
        exact ih hnd.2 h1

theorem WF_map_nodup (kvs : List (String × Node)) (h : WF (.map kvs)) :
    (kvs.map Prod.fst).Nodup := by
  cases h with
  | map _ hnd _ => exact hnd

theorem WF_map_mem (kvs : List (String × Node)) (h : WF (.map kvs)) :
    ∀ kv, kv ∈ kvs → WF kv.2 := by
  cases h with
  | map _ _ hmem => exact hmem

theorem WF_getKey (n : Node) (k : String) (c : Node) (hwf : WF n)
    (h : n.getKey k = some c) : WF c := by
  cases n with
  | map kvs => exact WF_map_mem kvs hwf (k, c) (lookupKey_mem kvs k c h)
  | scalar s => cases h
  | arr xs => cases h

theorem keys_setKeyList_some (kvs : List (String × Node)) (k : String) (v w : Node)
    (h : lookupKey kvs k = some w) :
    (setKeyList kvs k v).map Prod.fst = kvs.map Prod.fst := by
  induction kvs with
  | nil => cases h
  | cons kv rest ih =>
    cases kv with
    | mk k1 v1 =>
      by_cases hk : k1 = k
      · subst hk
        simp [setKeyList]
      · simp only [lookupKey, if_neg hk] at h
        simp [setKeyList, hk, ih h]

theorem mem_setKeyList (kvs : List (String × Node)) (k : String) (v : Node)
    (kv' : String × Node) (h : kv' ∈ setKeyList kvs k v) :
    kv' = (k, v) ∨ kv' ∈ kvs := by
  induction kvs with
  | nil =>
    simp [setKeyList] at h
    exact Or.inl h
  | cons kv rest ih =>
    cases kv with
    | mk k1 v1 =>
      by_cases hk : k1 = k
      · simp only [setKeyList, if_pos hk, List.mem_cons] at h
        rcases h with h | h
        · exact Or.inl h
        · exact Or.inr (List.mem_cons_of_mem _ h)
      · simp only [setKeyList, if_neg hk, List.mem_cons] at h
        rcases h with h | h
        · exact Or.inr (by rw [h]; exact List.mem_cons_self _ _)
        · rcases ih h with h1 | h1
          · exact Or.inl h1
          · exact Or.inr (List.mem_cons_of_mem _ h1)

theorem WF_setKey (n : Node) (k : String) (v : Node) (hwf : WF n) (hv : WF v) :
    WF (n.setKey k v) := by
  cases n with
  | map kvs =>
    refine WF.map _ ?_ ?_
    · cases h : lookupKey kvs k with
      | some w => rw [keys_setKeyList_some kvs k v w h]; exact WF_map_nodup kvs hwf
      | none =>
        rw [setKeyList_append_absent kvs k v h, List.map_append]
        refine List.Nodup.append (WF_map_nodup kvs hwf) (by simp) ?_
        intro x hx hy
        simp only [List.map_cons, List.map_nil, List.mem_singleton] at hy
        subst hy
        rcases List.mem_map.mp hx with ⟨kv, hkv, hfst⟩
        cases kv with
        | mk k1 v1 =>
          simp only at hfst
          subst hfst
          exact (lookupKey_eq_none_iff kvs k1).mp h v1 hkv
    · intro kv hkv
      rcases mem_setKeyList kvs k v kv hkv with h | h
      · rw [h]; exact hv
      · exact WF_map_mem kvs hwf kv h
  | scalar s => exact hwf
  | arr xs => exact hwf

theorem WF_removeKey (n : Node) (k : String) (hwf : WF n) : WF (n.removeKey k) := by
  cases n with
  | map kvs =>
    refine WF.map _ ?_ ?_
    · exact List.Nodup.sublist
        (List.Sublist.map Prod.fst (List.filter_sublist kvs)) (WF_map_nodup kvs hwf)
    · intro kv hkv
      exact WF_map_mem kvs hwf kv (List.mem_of_mem_filter hkv)
  | scalar s => exact hwf
  | arr xs => exact hwf

theorem WF_mergeShallow (n u : Node) (hwf : WF n) (hu : WF u) :
    WF (mergeShallow n u) := by
  cases u with
  | map ukvs =>
    cases n with
    | map kvs =>
      have hgen : ∀ (l : List (String × Node)) (acc : List (String × Node)),
          WF (.map acc) → (∀ kv, kv ∈ l → WF kv.2) →
          WF (.map (l.foldl (fun acc kv => setKeyList acc kv.1 kv.2) acc)) := by
        intro l
        induction l with
        | nil => intro acc hacc _; exact hacc
        | cons kv rest ih =>
          intro acc hacc hl
          simp only [List.foldl_cons]
          refine ih (setKeyList acc kv.1 kv.2) ?_
            (fun kv' hkv' => hl kv' (List.mem_cons_of_mem _ hkv'))
          exact WF_setKey (.map acc) kv.1 kv.2 hacc (hl kv (List.mem_cons_self _ _))
      exact hgen ukvs kvs hwf (WF_map_mem ukvs hu)
    | scalar s => exact hu
    | arr xs => exact hu
  | scalar s => cases n <;> exact hu
  | arr xs => cases n <;> exact hu

theorem WF_mapAt (p : List String) (f : Node → Node) (n : Node) (hwf : WF n)
    (hf : ∀ m, WF m → WF (f m)) : WF (mapAt n p f) := by
  induction p generalizing n with
  | nil => exact hf n hwf
  | cons k rest ih =>
    cases hk : n.getKey k with
    | some c =>
      simp only [mapAt, hk]
      exact WF_setKey n k _ hwf (ih c (WF_getKey n k c hwf hk))
    | none => simp only [mapAt, hk]; exact hwf

theorem WF_updateAt (p : List String) (n u : Node) (hwf : WF n) (hu : WF u) :
    WF (updateAt n p u) := by
  rw [updateAt_eq_mapAt]
  exact WF_mapAt p _ n hwf (fun m hm => WF_mergeShallow m u hm hu)

theorem WF_removeAt (p : List String) (n : Node) (hwf : WF n) :
    WF (removeAt n p) := by
  rcases List.eq_nil_or_concat p with rfl | ⟨q, k, rfl⟩
  · exact hwf
  · rw [List.concat_eq_append, removeAt_eq_mapAt]
    exact WF_mapAt q _ n hwf (fun m hm => WF_removeKey m k hm)

theorem WF_emptyReq : WF emptyReq := WF.map [] (by simp) (by simp)

theorem WF_upd1 : WF upd1 := by
  refine WF.map _ (by simp) ?_
  intro kv hkv
  simp only [List.mem_singleton] at hkv
  subst hkv
  refine WF.arr _ ?_
  intro x hx
  simp only [List.mem_singleton] at hx
  subst hx
  exact WF_emptyReq

theorem WF_globalReq : WF globalReq := by
  refine WF.arr _ ?_
  intro x hx
  simp only [globalReq, List.mem_singleton] at hx
  subst hx
  refine WF.map _ (by simp) ?_
  intro kv hkv
  simp only [List.mem_singleton] at hkv
  subst hkv
  exact WF.arr [] (by simp)

theorem WF_upd2 : WF upd2 := by
  refine WF.map _ (by simp) ?_
  intro kv hkv
  simp only [upd2, List.mem_singleton] at hkv
  subst hkv
  exact WF_globalReq

theorem WF_schemeVal : WF schemeVal := by
  refine WF.map _ (by simp [schemeVal]) ?_
  intro kv hkv
  simp only [schemeVal, List.mem_cons, List.not_mem_nil, or_false] at hkv
  rcases hkv with h | h | h <;> (subst h; exact WF.scalar _)

theorem WF_upd3 : WF upd3 := by
  refine WF.map _ (by simp) ?_
  intro kv hkv
  simp only [upd3, List.mem_singleton] at hkv
  subst hkv
  exact WF_schemeVal

theorem WF_actA1 (d : Node) (hwf : WF d) : WF (actA1 d) := by
  rw [actA1_eq]
  exact foldl_preserve _ WF _ d
    (fun y p _ hy => WF_updateAt p y upd1 hy WF_upd1) hwf

theorem WF_actA2 (d : Node) (hwf : WF d) : WF (actA2 d) :=
  WF_mergeShallow d upd2 hwf WF_upd2

theorem WF_actA3 (d : Node) (hwf : WF d) : WF (actA3 d) := by
  rw [actA3_eq]
  cases h : getPath d ["components", "securitySchemes"] with
  | some m => exact WF_updateAt _ d upd3 hwf WF_upd3
  | none => exact hwf

theorem WF_actA4 (d : Node) (hwf : WF d) : WF (actA4 d) := by
  rw [actA4_eq]
  exact foldl_preserve _ WF _ d
    (fun y p _ hy => WF_removeAt p y hy) hwf

theorem WF_fullApply (d : Node) (hwf : WF d) : WF (fullApply d) :=
  WF_actA4 _ (WF_actA3 _ (WF_actA2 _ (WF_actA1 _ hwf)))

/-! ## More `mapAt` and `mapEntries` lemmas -/

theorem lookupKey_append (l1 l2 : List (String × Node)) (k : String) :
    lookupKey (l1 ++ l2) k =
      match lookupKey l1 k with
      | some v => some v
      | none => lookupKey l2 k := by
  induction l1 with
  | nil => rfl
  | cons kv rest ih =>
    cases kv with
    | mk k1 v1 =>
      by_cases hk : k1 = k
      · simp [lookupKey, hk]
      · simp [lookupKey, hk, ih]

theorem setKeyList_append_left (l1 l2 : List (String × Node)) (k : String) (v : Node)
    (h : lookupKey l1 k = none) :
    setKeyList (l1 ++ l2) k v = l1 ++ setKeyList l2 k v := by
  induction l1 with
  | nil => rfl
  | cons kv rest ih =>
    cases kv with
    | mk k1 v1 =>
      by_cases hk : k1 = k
      · simp [lookupKey, hk] at h
      · simp only [lookupKey, if_neg hk] at h
        simp [setKeyList, hk, ih h]

theorem mapAt_id (p : List String) (n : Node) : mapAt n p (fun m => m) = n := by
  induction p generalizing n with
  | nil => rfl
  | cons k rest ih =>
    cases hk : n.getKey k with
    | some c =>
      simp only [mapAt, hk, ih]
      exact setKey_getKey_self n k c hk
    | none => simp [mapAt, hk]

theorem mapAt_eq_self (p : List String) (f : Node → Node) (n m : Node)
    (hg : getPath n p = some m) (hf : f m = m) : mapAt n p f = n := by
  induction p generalizing n with
  | nil =>
    simp only [getPath, Option.some_inj] at hg
    subst hg
    exact hf
  | cons k rest ih =>
    cases hk : n.getKey k with
    | some c =>
      simp only [getPath_cons, hk] at hg
      simp only [mapAt, hk]
      rw [ih c hg]
      exact setKey_getKey_self n k c hk
    | none => simp [getPath_cons, hk] at hg

theorem mapAt_singleton_some (n c : Node) (k : String) (f : Node → Node)
    (h : n.getKey k = some c) : mapAt n [k] f = n.setKey k (f c) := by
  simp [mapAt, h]

theorem mapAt_singleton_none (n : Node) (k : String) (f : Node → Node)
    (h : n.getKey k = none) : mapAt n [k] f = n := by
  simp [mapAt, h]

theorem getKey_mapAt_cons_ne (n : Node) (a : String) (p : List String)
    (f : Node → Node) (b : String) (h : b ≠ a) :
    (mapAt n (a :: p) f).getKey b = n.getKey b := by
  rw [← getPath_singleton, getPath_mapAt_head_ne a p b [] f n h, getPath_singleton]

theorem isMap_mapAt_cons (n : Node) (k : String) (p : List String) (f : Node → Node)
    (h : IsMap n) : IsMap (mapAt n (k :: p) f) := by
  obtain ⟨kvs, rfl⟩ := h
  cases hk : (Node.map kvs).getKey k with
  | some c =>
    simp only [mapAt, hk]
    exact ⟨setKeyList kvs k (mapAt c p f), rfl⟩
  | none =>
    simp only [mapAt, hk]
    exact ⟨kvs, rfl⟩

theorem lookupKey_map_pair (kvs : List (String × Node)) (f : Node → Node) (k : String) :
    lookupKey (kvs.map (fun kv => (kv.1, f kv.2))) k = (lookupKey kvs k).map f := by
  induction kvs with
  | nil => rfl
  | cons kv rest ih =>
    cases kv with
    | mk k1 v1 =>
      by_cases hk : k1 = k
      · simp [lookupKey, hk]
      · simp [lookupKey, hk, ih]

theorem mapEntries_comp (f g : Node → Node) (n : Node) :
    mapEntries f (mapEntries g n) = mapEntries (fun c => f (g c)) n := by
  cases n with
  | map kvs =>
    simp only [mapEntries, List.map_map]
    rfl
  | scalar s => rfl
  | arr xs => rfl

theorem map_pair_eq_self (kvs : List (String × Node)) (g : Node → Node)
    (h : ∀ kv ∈ kvs, g kv.2 = kv.2) :
    kvs.map (fun kv => (kv.1, g kv.2)) = kvs := by
  induction kvs with
  | nil => rfl
  | cons kv rest ih =>
    rw [List.map_cons, h kv (List.mem_cons_self _ _),
      ih (fun kv' h' => h kv' (List.mem_cons_of_mem _ h'))]

theorem dedupKeys_eq_self : ∀ (kvs : List (String × Node)),
    (kvs.map Prod.fst).Nodup → dedupKeys kvs = kvs := by
  intro kvs
  induction kvs with
  | nil => intro _; rw [dedupKeys]
  | cons kv rest ih =>
    intro hnd
    cases kv with
    | mk k v =>
      simp only [List.map_cons, List.nodup_cons] at hnd
      rw [dedupKeys_cons,
        removeKeyList_eq_self rest k (lookupKey_eq_none_of_keys rest k hnd.1),
        ih hnd.2]

theorem flatMap_if_filter {α β : Type} (l : List α) (c : α → Bool) (g : α → β) :
    (l.flatMap fun x => if c x then [g x] else []) = (l.filter c).map g := by
  induction l with
  | nil => rfl
  | cons a l ih =>
    rw [List.flatMap_cons, List.filter_cons]
    by_cases h : c a
    · simp only [h, if_true, List.map_cons]
      rw [ih]
      rfl
    · simp only [h, Bool.false_eq_true, if_false]
      rw [ih]
      rfl

theorem foldl_mapAt_localized {γ : Type} (p0 : List String) (pathOf : γ → List String)
    (F : γ → Node → Node) (L : List γ) (x : Node) :
    L.foldl (fun acc c => mapAt acc (p0 ++ pathOf c) (F c)) x =
      mapAt x p0 (fun m => L.foldl (fun m c => mapAt m (pathOf c) (F c)) m) := by
  induction L generalizing x with
  | nil =>
    simp only [List.foldl_nil]
    exact (mapAt_id p0 x).symm
  | cons c L ih =>
    simp only [List.foldl_cons]
    rw [ih, mapAt_append, mapAt_mapAt]

theorem foldl_mapAt_filter (g : Node → Node) (sel : Node → Bool) :
    ∀ (kvs pre : List (String × Node)), ((pre ++ kvs).map Prod.fst).Nodup →
      (kvs.filter (fun kv => sel kv.2)).foldl (fun acc kv => mapAt acc [kv.1] g)
        (Node.map (pre ++ kvs)) =
      Node.map (pre ++ kvs.map (fun kv => (kv.1, if sel kv.2 then g kv.2 else kv.2))) := by
  intro kvs
  induction kvs with
  | nil => intro pre _; simp
  | cons kv rest ih =>
    intro pre hnd
    cases kv with
    | mk b vb =>
      have hb : b ∉ pre.map Prod.fst := by
        have hdisj := List.disjoint_of_nodup_append (by
          simpa [List.map_append] using hnd)
        exact fun hmem => hdisj hmem (by simp)
      have hlkpre : lookupKey pre b = none := lookupKey_eq_none_of_keys pre b hb
      have hnd' : ∀ (w : Node), (((pre ++ [(b, w)]) ++ rest).map Prod.fst).Nodup := by
        intro w
        have : ((pre ++ [(b, w)]) ++ rest).map Prod.fst =
            ((pre ++ (b, vb) :: rest).map Prod.fst) := by
          simp [List.map_append]
        rw [this]
        exact hnd
      have harr : ∀ (w : Node) (l : List (String × Node)),
          Node.map ((pre ++ [(b, w)]) ++ l) = Node.map (pre ++ (b, w) :: l) := by
        intro w l
        rw [List.append_assoc]
        rfl
      by_cases hsel : sel vb
      · rw [List.filter_cons_of_pos (by simpa using hsel), List.foldl_cons]
        have hlk : (Node.map (pre ++ (b, vb) :: rest)).getKey b = some vb := by
          show lookupKey (pre ++ (b, vb) :: rest) b = some vb
          rw [lookupKey_append, hlkpre]
          simp [lookupKey]
        have hstep : mapAt (Node.map (pre ++ (b, vb) :: rest)) [b] g =
            Node.map ((pre ++ [(b, g vb)]) ++ rest) := by
          rw [mapAt_singleton_some _ vb b g hlk]
          show Node.map (setKeyList (pre ++ (b, vb) :: rest) b (g vb)) = _
          rw [setKeyList_append_left pre _ b (g vb) hlkpre]
          simp [setKeyList]
        rw [hstep, ih (pre ++ [(b, g vb)]) (hnd' (g vb)), harr, List.map_cons]
        simp only [hsel, if_true]
      · rw [List.filter_cons_of_neg (by simpa using hsel)]
        have htgt : Node.map (pre ++ (b, vb) :: rest) =
            Node.map ((pre ++ [(b, vb)]) ++ rest) := (harr vb rest).symm
        rw [htgt, ih (pre ++ [(b, vb)]) (hnd' vb), List.map_cons]
        simp only [hsel, Bool.false_eq_true, if_false]
        rw [List.append_assoc]
        rfl

theorem foldl_mapAt_entries (F : String × Node → Node → Node) (t : Node → Node) :
    ∀ (kvs pre : List (String × Node)), ((pre ++ kvs).map Prod.fst).Nodup →
      (∀ kv, kv ∈ kvs → F kv kv.2 = t kv.2) →
      kvs.foldl (fun acc kv => mapAt acc [kv.1] (F kv)) (Node.map (pre ++ kvs)) =
        Node.map (pre ++ kvs.map (fun kv => (kv.1, t kv.2))) := by
  intro kvs
  induction kvs with
  | nil => intro pre _ _; simp
  | cons kv rest ih =>
    intro pre hnd hFt
    cases kv with
    | mk b vb =>
      have hb : b ∉ pre.map Prod.fst := by
        have hdisj := List.disjoint_of_nodup_append (by
          simpa [List.map_append] using hnd)
        exact fun hmem => hdisj hmem (by simp)
      have hlkpre : lookupKey pre b = none := lookupKey_eq_none_of_keys pre b hb
      have hnd' : (((pre ++ [(b, t vb)]) ++ rest).map Prod.fst).Nodup := by
        have : ((pre ++ [(b, t vb)]) ++ rest).map Prod.fst =
            ((pre ++ (b, vb) :: rest).map Prod.fst) := by
          simp [List.map_append]
        rw [this]
        exact hnd
      rw [List.foldl_cons]
      have hlk : (Node.map (pre ++ (b, vb) :: rest)).getKey b = some vb := by
        show lookupKey (pre ++ (b, vb) :: rest) b = some vb
        rw [lookupKey_append, hlkpre]
        simp [lookupKey]
      have hstep : mapAt (Node.map (pre ++ (b, vb) :: rest)) [b] (F (b, vb)) =
          Node.map ((pre ++ [(b, t vb)]) ++ rest) := by
        rw [mapAt_singleton_some _ vb b _ hlk]
        show Node.map (setKeyList (pre ++ (b, vb) :: rest) b (F (b, vb) vb)) = _
        rw [hFt (b, vb) (List.mem_cons_self _ _)]
        rw [setKeyList_append_left pre _ b (t vb) hlkpre]
        simp [setKeyList]
      rw [hstep, ih (pre ++ [(b, t vb)]) hnd'
        (fun kv' h' => hFt kv' (List.mem_cons_of_mem _ h')), List.map_cons]
      rw [List.append_assoc]
      rfl

/-! ## Structural form of actions 1 and 4 on well-formed documents -/

theorem foldl_congr_mem {α β : Type} (L : List β) (f g : α → β → α) (x : α)
    (h : ∀ y b, b ∈ L → f y b = g y b) : L.foldl f x = L.foldl g x := by
  induction L generalizing x with
  | nil => rfl
  | cons b L ih =>
    simp only [List.foldl_cons]
    rw [h x b (List.mem_cons_self _ _)]
    exact ih _ (fun y b' hb' => h y b' (List.mem_cons_of_mem _ hb'))

theorem foldl_flatMap {α β γ : Type} (L : List γ) (f : γ → List β)
    (step : α → β → α) (x : α) :
    (L.flatMap f).foldl step x = L.foldl (fun y c => (f c).foldl step y) x := by
  induction L generalizing x with
  | nil => rfl
  | cons c L ih => rw [List.flatMap_cons, List.foldl_append, List.foldl_cons, ih]

theorem selectFrom_key_some (n c : Node) (p : List String) (k : String)
    (segs : List Seg) (h : n.getKey k = some c) :
    selectFrom n p (.key k :: segs) = selectFrom c (p ++ [k]) segs := by
  simp [selectFrom, h]

theorem selectFrom_key_none (n : Node) (p : List String) (k : String)
    (segs : List Seg) (h : n.getKey k = none) :
    selectFrom n p (.key k :: segs) = [] := by
  simp [selectFrom, h]

theorem selectFrom_wc_map (kvs : List (String × Node)) (p : List String)
    (segs : List Seg) :
    selectFrom (.map kvs) p (.wildcard :: segs) =
      (dedupKeys kvs).flatMap (fun kv => selectFrom kv.2 (p ++ [kv.1]) segs) := rfl

theorem selectFrom_filter1_paths (pa : List String) (c : Node) :
    (selectFrom c pa [.filter pred1]).map Prod.fst =
      if evalPred pred1 c then [pa] else [] := by
  by_cases h : evalPred pred1 c <;> simp [selectFrom, h]

theorem selectFrom_filter4_paths (pa : List String) (c : Node) :
    (selectFrom c pa [.filter pred4, .key "security"]).map Prod.fst =
      if evalPred pred4 c && (c.getKey "security").isSome then
        [pa ++ ["security"]] else [] := by
  by_cases h : evalPred pred4 c
  · cases hs : c.getKey "security" with
    | some s => simp [selectFrom, h, hs]
    | none => simp [selectFrom, h, hs]
  · simp [selectFrom, h]

theorem actA1_struct (d : Node) (hwf : WF d) : actA1 d = mapOps opT1 d := by
  rw [actA1_eq, mapOps]
  have hfun : (fun (acc : Node) (p : List String) => updateAt acc p upd1) =
      (fun acc p => mapAt acc p (fun m => mergeShallow m upd1)) := by
    funext acc p
    exact updateAt_eq_mapAt p acc upd1
  rw [hfun]
  cases hpv : d.getKey "paths" with
  | none =>
    have hsel : select d segs1 = [] := selectFrom_key_none d [] "paths" _ hpv
    rw [hsel]
    simp only [List.map_nil, List.foldl_nil]
    exact (mapAt_singleton_none d "paths" _ hpv).symm
  | some pv =>
    cases pv with
    | scalar s =>
      have hsel : select d segs1 = [] := by
        rw [show select d segs1 = selectFrom d [] segs1 from rfl,
          show segs1 = Seg.key "paths" ::
            [Seg.wildcard, .wildcard, .filter pred1] from rfl,
          selectFrom_key_some d _ [] "paths" _ hpv]
        rfl
      rw [hsel]
      simp only [List.map_nil, List.foldl_nil]
      rw [mapAt_singleton_some d _ "paths" _ hpv]
      exact (setKey_getKey_self d "paths" _ hpv).symm
    | arr xs =>
      have hsel : select d segs1 = [] := by
        rw [show select d segs1 = selectFrom d [] segs1 from rfl,
          show segs1 = Seg.key "paths" ::
            [Seg.wildcard, .wildcard, .filter pred1] from rfl,
          selectFrom_key_some d _ [] "paths" _ hpv]
        rfl
      rw [hsel]
      simp only [List.map_nil, List.foldl_nil]
      rw [mapAt_singleton_some d _ "paths" _ hpv]
      exact (setKey_getKey_self d "paths" _ hpv).symm
    | map pkvs =>
      have hwfpv : WF (.map pkvs) := WF_getKey d "paths" _ hwf hpv
      have hndp : (pkvs.map Prod.fst).Nodup := WF_map_nodup pkvs hwfpv
      have hsel : (select d segs1).map Prod.fst =
          pkvs.flatMap (fun akv =>
            (selectFrom akv.2 (["paths"] ++ [akv.1])
              [.wildcard, .filter pred1]).map Prod.fst) := by
        rw [show select d segs1 = selectFrom d [] segs1 from rfl,
          show segs1 = .key "paths" ::
            [Seg.wildcard, .wildcard, .filter pred1] from rfl,
          selectFrom_key_some d _ [] "paths" _ hpv,
          List.nil_append, selectFrom_wc_map,
          dedupKeys_eq_self pkvs hndp, List.map_flatMap]
      rw [hsel, foldl_flatMap]
      have hgrp : ∀ (y : Node) (akv : String × Node), akv ∈ pkvs →
          ((selectFrom akv.2 (["paths"] ++ [akv.1])
              [Seg.wildcard, .filter pred1]).map Prod.fst).foldl
            (fun acc p => mapAt acc p (fun m => mergeShallow m upd1)) y =
          mapAt y (["paths"] ++ [akv.1])
            (fun m =>
              match akv.2 with
              | Node.map okvs =>
                (okvs.filter (fun bkv => evalPred pred1 bkv.2)).foldl
                  (fun m bkv => mapAt m [bkv.1] (fun c => mergeShallow c upd1)) m
              | _ => m) := by
        rintro y ⟨a, va⟩ hmem
        cases va with
        | map okvs =>
          have hndo : (okvs.map Prod.fst).Nodup :=
            WF_map_nodup okvs (WF_map_mem pkvs hwfpv (a, .map okvs) hmem)
          have hin : (selectFrom (Node.map okvs) (["paths"] ++ [a])
              [Seg.wildcard, .filter pred1]).map Prod.fst =
              (okvs.filter (fun bkv => evalPred pred1 bkv.2)).map
                (fun bkv => (["paths"] ++ [a]) ++ [bkv.1]) := by
            rw [selectFrom_wc_map, dedupKeys_eq_self okvs hndo, List.map_flatMap]
            rw [show (fun (bkv : String × Node) =>
                (selectFrom bkv.2 ((["paths"] ++ [a]) ++ [bkv.1])
                  [Seg.filter pred1]).map Prod.fst) =
              (fun bkv => if evalPred pred1 bkv.2 then
                  [(["paths"] ++ [a]) ++ [bkv.1]] else []) from
              funext (fun bkv => selectFrom_filter1_paths _ bkv.2)]
            exact flatMap_if_filter okvs _ _
          rw [hin, List.foldl_map]
          exact foldl_mapAt_localized (["paths"] ++ [a])
            (fun (bkv : String × Node) => [bkv.1])
            (fun _ => fun c => mergeShallow c upd1)
            (okvs.filter (fun bkv => evalPred pred1 bkv.2)) y
        | scalar s =>
          show y = mapAt y (["paths"] ++ [a]) (fun m => m)
          exact (mapAt_id _ y).symm
        | arr xs =>
          show y = mapAt y (["paths"] ++ [a]) (fun m => m)
          exact (mapAt_id _ y).symm
      rw [foldl_congr_mem pkvs _ _ d hgrp]
      rw [foldl_mapAt_localized ["paths"] (fun akv => [akv.1]) _ pkvs d]
      rw [mapAt_singleton_some d _ "paths" _ hpv]
      have hinner : pkvs.foldl (fun m akv => mapAt m [akv.1]
          (fun m =>
            match akv.2 with
            | Node.map okvs =>
              (okvs.filter (fun bkv => evalPred pred1 bkv.2)).foldl
                (fun m bkv => mapAt m [bkv.1] (fun c => mergeShallow c upd1)) m
            | _ => m)) (Node.map pkvs) =
          Node.map (pkvs.map (fun akv => (akv.1, mapEntries opT1 akv.2))) := by
        have := foldl_mapAt_entries
          (fun akv => fun m =>
            match akv.2 with
            | Node.map okvs =>
              (okvs.filter (fun bkv => evalPred pred1 bkv.2)).foldl
                (fun m bkv => mapAt m [bkv.1] (fun c => mergeShallow c upd1)) m
            | _ => m)
          (mapEntries opT1) pkvs [] (by simpa using hndp) ?_
        · simpa using this
        · rintro ⟨a, va⟩ hmem
          cases va with
          | map okvs =>
            have hndo : (okvs.map Prod.fst).Nodup :=
              WF_map_nodup okvs (WF_map_mem pkvs hwfpv (a, .map okvs) hmem)
            show (okvs.filter (fun bkv => evalPred pred1 bkv.2)).foldl
                (fun m bkv => mapAt m [bkv.1] (fun c => mergeShallow c upd1))
                (Node.map okvs) = mapEntries opT1 (.map okvs)
            have := foldl_mapAt_filter (fun c => mergeShallow c upd1)
              (fun c => evalPred pred1 c) okvs [] (by simpa using hndo)
            simpa using this
          | scalar s => rfl
          | arr xs => rfl
      rw [hinner]
      rw [mapAt_singleton_some d _ "paths" _ hpv]
      rfl

theorem opT4_of_checked (c : Node) :
    (if evalPred pred4 c && (c.getKey "security").isSome then
      c.removeKey "security" else c) = opT4 c := by
  by_cases h4 : evalPred pred4 c
  · cases hs : c.getKey "security" with
    | some s => simp [opT4, h4, hs]
    | none => simp [opT4, h4, hs, removeKey_eq_self c _ hs]
  · simp [opT4, h4]

theorem actA4_struct (d : Node) (hwf : WF d) : actA4 d = mapOps opT4 d := by
  rw [actA4_eq, mapOps]
  cases hpv : d.getKey "paths" with
  | none =>
    have hsel : select d segs4 = [] := selectFrom_key_none d [] "paths" _ hpv
    rw [hsel]
    simp only [List.map_nil, List.foldl_nil]
    exact (mapAt_singleton_none d "paths" _ hpv).symm
  | some pv =>
    cases pv with
    | scalar s =>
      have hsel : select d segs4 = [] := by
        rw [show select d segs4 = selectFrom d [] segs4 from rfl,
          show segs4 = Seg.key "paths" ::
            [Seg.wildcard, .wildcard, .filter pred4, .key "security"] from rfl,
          selectFrom_key_some d _ [] "paths" _ hpv]
        rfl
      rw [hsel]
      simp only [List.map_nil, List.foldl_nil]
      rw [mapAt_singleton_some d _ "paths" _ hpv]
      exact (setKey_getKey_self d "paths" _ hpv).symm
    | arr xs =>
      have hsel : select d segs4 = [] := by
        rw [show select d segs4 = selectFrom d [] segs4 from rfl,
          show segs4 = Seg.key "paths" ::
            [Seg.wildcard, .wildcard, .filter pred4, .key "security"] from rfl,
          selectFrom_key_some d _ [] "paths" _ hpv]
        rfl
      rw [hsel]
      simp only [List.map_nil, List.foldl_nil]
      rw [mapAt_singleton_some d _ "paths" _ hpv]
      exact (setKey_getKey_self d "paths" _ hpv).symm
    | map pkvs =>
      have hwfpv : WF (.map pkvs) := WF_getKey d "paths" _ hwf hpv
      have hndp : (pkvs.map Prod.fst).Nodup := WF_map_nodup pkvs hwfpv
      have hsel : (select d segs4).map Prod.fst =
          pkvs.flatMap (fun akv =>
            (selectFrom akv.2 (["paths"] ++ [akv.1])
              [.wildcard, .filter pred4, .key "security"]).map Prod.fst) := by
        rw [show select d segs4 = selectFrom d [] segs4 from rfl,
          show segs4 = .key "paths" ::
            [Seg.wildcard, .wildcard, .filter pred4, .key "security"] from rfl,
          selectFrom_key_some d _ [] "paths" _ hpv,
          List.nil_append, selectFrom_wc_map,
          dedupKeys_eq_self pkvs hndp, List.map_flatMap]
      rw [hsel, foldl_flatMap]
      have hgrp : ∀ (y : Node) (akv : String × Node), akv ∈ pkvs →
          ((selectFrom akv.2 (["paths"] ++ [akv.1])
              [Seg.wildcard, .filter pred4, .key "security"]).map Prod.fst).foldl
            (fun acc p => removeAt acc p) y =
          mapAt y (["paths"] ++ [akv.1])
            (fun m =>
              match akv.2 with
              | Node.map okvs =>
                (okvs.filter (fun bkv =>
                    evalPred pred4 bkv.2 && (bkv.2.getKey "security").isSome)).foldl
                  (fun m bkv => mapAt m [bkv.1] (fun c => c.removeKey "security")) m
              | _ => m) := by
        rintro y ⟨a, va⟩ hmem
        cases va with
        | map okvs =>
          have hndo : (okvs.map Prod.fst).Nodup :=
            WF_map_nodup okvs (WF_map_mem pkvs hwfpv (a, .map okvs) hmem)
          have hin : (selectFrom (Node.map okvs) (["paths"] ++ [a])
              [Seg.wildcard, .filter pred4, .key "security"]).map Prod.fst =
              (okvs.filter (fun bkv =>
                  evalPred pred4 bkv.2 && (bkv.2.getKey "security").isSome)).map
                (fun bkv => ((["paths"] ++ [a]) ++ [bkv.1]) ++ ["security"]) := by
            rw [selectFrom_wc_map, dedupKeys_eq_self okvs hndo, List.map_flatMap]
            rw [show (fun (bkv : String × Node) =>
                (selectFrom bkv.2 ((["paths"] ++ [a]) ++ [bkv.1])
                  [Seg.filter pred4, .key "security"]).map Prod.fst) =
              (fun bkv => if evalPred pred4 bkv.2 && (bkv.2.getKey "security").isSome
                then [((["paths"] ++ [a]) ++ [bkv.1]) ++ ["security"]] else []) from
              funext (fun bkv => selectFrom_filter4_paths _ bkv.2)]
            exact flatMap_if_filter okvs _ _
          rw [hin, List.foldl_map]
          have hrm : (fun (y : Node) (bkv : String × Node) =>
              removeAt y (((["paths"] ++ [a]) ++ [bkv.1]) ++ ["security"])) =
              (fun y bkv => mapAt y ((["paths"] ++ [a]) ++ [bkv.1])
                (fun c => c.removeKey "security")) := by
            funext y bkv
            exact removeAt_eq_mapAt ((["paths"] ++ [a]) ++ [bkv.1]) "security" y
          rw [hrm]
          exact foldl_mapAt_localized (["paths"] ++ [a])
            (fun (bkv : String × Node) => [bkv.1])
            (fun _ => fun c => c.removeKey "security")
            (okvs.filter (fun bkv =>
              evalPred pred4 bkv.2 && (bkv.2.getKey "security").isSome)) y
        | scalar s =>
          show y = mapAt y (["paths"] ++ [a]) (fun m => m)
          exact (mapAt_id _ y).symm
        | arr xs =>
          show y = mapAt y (["paths"] ++ [a]) (fun m => m)
          exact (mapAt_id _ y).symm
      rw [foldl_congr_mem pkvs _ _ d hgrp]
      rw [foldl_mapAt_localized ["paths"] (fun akv => [akv.1]) _ pkvs d]
      rw [mapAt_singleton_some d _ "paths" _ hpv]
      have hinner : pkvs.foldl (fun m akv => mapAt m [akv.1]
          (fun m =>
            match akv.2 with
            | Node.map okvs =>
              (okvs.filter (fun bkv =>
                  evalPred pred4 bkv.2 && (bkv.2.getKey "security").isSome)).foldl
                (fun m bkv => mapAt m [bkv.1] (fun c => c.removeKey "security")) m
            | _ => m)) (Node.map pkvs) =
          Node.map (pkvs.map (fun akv => (akv.1, mapEntries opT4 akv.2))) := by
        have := foldl_mapAt_entries
          (fun akv => fun m =>
            match akv.2 with
            | Node.map okvs =>
              (okvs.filter (fun bkv =>
                  evalPred pred4 bkv.2 && (bkv.2.getKey "security").isSome)).foldl
                (fun m bkv => mapAt m [bkv.1] (fun c => c.removeKey "security")) m
            | _ => m)
          (mapEntries opT4) pkvs [] (by simpa using hndp) ?_
        · simpa using this
        · rintro ⟨a, va⟩ hmem
          cases va with
          | map okvs =>
            have hndo : (okvs.map Prod.fst).Nodup :=
              WF_map_nodup okvs (WF_map_mem pkvs hwfpv (a, .map okvs) hmem)
            show (okvs.filter (fun bkv =>
                evalPred pred4 bkv.2 && (bkv.2.getKey "security").isSome)).foldl
                (fun m bkv => mapAt m [bkv.1] (fun c => c.removeKey "security"))
                (Node.map okvs) = mapEntries opT4 (.map okvs)
            have hfil := foldl_mapAt_filter (fun c => c.removeKey "security")
              (fun c => evalPred pred4 c && (c.getKey "security").isSome)
              okvs [] (by simpa using hndo)
            simp only [List.nil_append] at hfil
            rw [hfil]
            show Node.map (okvs.map (fun bkv => (bkv.1,
              if evalPred pred4 bkv.2 && (bkv.2.getKey "security").isSome then
                bkv.2.removeKey "security" else bkv.2))) = _
            rw [show (fun (bkv : String × Node) => (bkv.1,
                if evalPred pred4 bkv.2 && (bkv.2.getKey "security").isSome then
                  bkv.2.removeKey "security" else bkv.2)) =
              (fun bkv => (bkv.1, opT4 bkv.2)) from
              funext (fun bkv => by rw [opT4_of_checked bkv.2])]
            rfl
          | scalar s => rfl
          | arr xs => rfl
      rw [hinner]
      rw [mapAt_singleton_some d _ "paths" _ hpv]
      rfl

/-! ## `mapOps` lemmas -/

theorem mapOps_comp (f g : Node → Node) (X : Node) :
    mapOps f (mapOps g X) = mapOps (fun c => f (g c)) X := by
  rw [mapOps, mapOps, mapOps, mapAt_mapAt]
  have h : (fun m => mapEntries (mapEntries f) (mapEntries (mapEntries g) m)) =
      mapEntries (mapEntries (fun c => f (g c))) := by
    funext m
    rw [mapEntries_comp]
    have h2 : (fun c => mapEntries f (mapEntries g c)) =
        mapEntries (fun c => f (g c)) := by
      funext c
      rw [mapEntries_comp]
    rw [h2]
  rw [h]

theorem getPath_mapOps_head_ne (f : Node → Node) (X : Node) (b : String)
    (q : List String) (hb : b ≠ "paths") :
    getPath (mapOps f X) (b :: q) = getPath X (b :: q) :=
  getPath_mapAt_head_ne "paths" [] b q _ X hb

theorem getKey_mapOps_ne (f : Node → Node) (X : Node) (b : String)
    (hb : b ≠ "paths") : (mapOps f X).getKey b = X.getKey b :=
  getKey_mapAt_cons_ne X "paths" [] _ b hb

theorem isMap_mapOps (f : Node → Node) (X : Node) (h : IsMap X) :
    IsMap (mapOps f X) :=
  isMap_mapAt_cons X "paths" [] _ h

theorem getKey_mapEntries (f : Node → Node) (n : Node) (k : String) :
    (mapEntries f n).getKey k = (n.getKey k).map f := by
  cases n with
  | map kvs => exact lookupKey_map_pair kvs f k
  | scalar s => rfl
  | arr xs => rfl

theorem getPath_mapOps_op (f : Node → Node) (X : Node) (a b : String) (n : Node)
    (h : getPath (mapOps f X) ["paths", a, b] = some n) :
    ∃ c, getPath X ["paths", a, b] = some c ∧ n = f c := by
  rw [mapOps] at h
  cases hpv : X.getKey "paths" with
  | none =>
    rw [mapAt_singleton_none X "paths" _ hpv] at h
    simp [getPath_cons, hpv] at h
  | some pv =>
    rw [mapAt_singleton_some X pv "paths" _ hpv] at h
    have hXmap : ∃ xkvs, X = .map xkvs := by
      cases X with
      | map xkvs => exact ⟨xkvs, rfl⟩
      | scalar s => cases hpv
      | arr xs => cases hpv
    obtain ⟨xkvs, rfl⟩ := hXmap
    rw [getPath_cons] at h
    have hk := getKey_setKey_self xkvs "paths" (mapEntries (mapEntries f) pv)
    simp only [hk] at h
    rw [getPath_cons] at h
    simp only [getKey_mapEntries] at h
    cases hla : pv.getKey a with
    | none => simp [hla] at h
    | some va =>
      simp [hla] at h
      rw [getPath_singleton, getKey_mapEntries] at h
      cases hlb : va.getKey b with
      | none => simp [hlb] at h
      | some vb =>
        simp [hlb] at h
        refine ⟨vb, ?_, h.symm⟩
        rw [getPath_cons]
        simp only [hpv]
        rw [getPath_cons]
        simp only [hla]
        rw [getPath_singleton]
        exact hlb

theorem mapOps_eq_self (t : Node → Node) (X : Node) (hwf : WF X)
    (hgood : ∀ a b n, getPath X ["paths", a, b] = some n → t n = n) :
    mapOps t X = X := by
  rw [mapOps]
  cases hpv : X.getKey "paths" with
  | none => exact mapAt_singleton_none X "paths" _ hpv
  | some pv =>
    rw [mapAt_singleton_some X pv "paths" _ hpv]
    have hE : mapEntries (mapEntries t) pv = pv := by
      cases pv with
      | scalar s => rfl
      | arr ys => rfl
      | map pkvs =>
        have hwfpv : WF (.map pkvs) := WF_getKey X "paths" _ hwf hpv
        show Node.map (pkvs.map (fun kv => (kv.1, mapEntries t kv.2))) = Node.map pkvs
        congr 1
        refine map_pair_eq_self pkvs (mapEntries t) ?_
        rintro ⟨a, va⟩ hmem
        cases va with
        | scalar s => rfl
        | arr ys => rfl
        | map okvs =>
          have hwfva : WF (.map okvs) :=
            WF_map_mem pkvs hwfpv (a, .map okvs) hmem
          show Node.map (okvs.map (fun kv => (kv.1, t kv.2))) = Node.map okvs
          congr 1
          refine map_pair_eq_self okvs t ?_
          rintro ⟨b, vb⟩ hmemb
          show t vb = vb
          refine hgood a b vb ?_
          have h2 : (Node.map pkvs).getKey a = some (Node.map okvs) :=
            mem_lookupKey_of_nodup pkvs a (.map okvs)
              (WF_map_nodup pkvs hwfpv) hmem
          have h3 : (Node.map okvs).getKey b = some vb :=
            mem_lookupKey_of_nodup okvs b vb (WF_map_nodup okvs hwfva) hmemb
          rw [getPath_cons]
          simp only [hpv]
          rw [getPath_cons]
          simp only [h2]
          rw [getPath_singleton]
          exact h3
    rw [hE]
    exact setKey_getKey_self X "paths" pv hpv

/-! ## Stability of actions 2 and 3 on already-transformed documents -/

theorem actA2_stable (X : Node) (hsec : X.getKey "security" = some globalReq)
    (hmap : IsMap X) : actA2 X = X := by
  obtain ⟨kvs, rfl⟩ := hmap
  rw [actA2_eq]
  show Node.map (setKeyList kvs "security" globalReq) = Node.map kvs
  rw [setKeyList_lookup_eq_self kvs "security" globalReq hsec]

theorem mergeShallow_upd3_idem (x : Node) :
    mergeShallow (mergeShallow x upd3) upd3 = mergeShallow x upd3 := by
  cases x with
  | map kvs =>
    show Node.map (setKeyList (setKeyList kvs "access_token" schemeVal)
      "access_token" schemeVal) = Node.map (setKeyList kvs "access_token" schemeVal)
    rw [setKeyList_setKeyList_same]
  | scalar s => rfl
  | arr xs => rfl

theorem actA3_cs (X : Node) :
    getPath (actA3 X) ["components", "securitySchemes"] =
      match getPath X ["components", "securitySchemes"] with
      | some m => some (mergeShallow m upd3)
      | none => none := by
  rw [actA3_eq]
  cases h : getPath X ["components", "securitySchemes"] with
  | some m =>
    rw [updateAt_eq_mapAt]
    exact getPath_mapAt_self _ _ X m h
  | none => rw [h]

theorem actA3_stable (X : Node)
    (h : getPath X ["components", "securitySchemes"] = none ∨
      ∃ m, getPath X ["components", "securitySchemes"] = some (mergeShallow m upd3)) :
    actA3 X = X := by
  rw [actA3_eq]
  rcases h with h | ⟨m, h⟩
  · rw [h]
  · rw [h, updateAt_eq_mapAt]
    exact mapAt_eq_self _ _ X (mergeShallow m upd3) h (mergeShallow_upd3_idem m)

/-! ## Shape facts about the fully transformed document -/

theorem isMap_actA2 (X : Node) : IsMap (actA2 X) := by
  rw [actA2_eq]
  cases X with
  | map kvs => exact ⟨_, rfl⟩
  | scalar s => exact ⟨_, rfl⟩
  | arr xs => exact ⟨_, rfl⟩

theorem isMap_actA3 (X : Node) (h : IsMap X) : IsMap (actA3 X) := by
  rw [actA3_eq]
  cases hcs : getPath X ["components", "securitySchemes"] with
  | some m =>
    rw [updateAt_eq_mapAt]
    exact isMap_mapAt_cons X "components" _ _ h
  | none => exact h

theorem isMap_actA4 (X : Node) (h : IsMap X) : IsMap (actA4 X) := by
  rw [actA4_eq]
  refine foldl_preserve _ IsMap _ X ?_ h
  intro y p hp hy
  obtain ⟨a', b', hsh⟩ := sel4_paths_shape X p hp
  subst hsh
  rw [show (["paths", a', b', "security"] : List String) =
    ["paths", a', b'] ++ ["security"] from rfl, removeAt_eq_mapAt]
  exact isMap_mapAt_cons y "paths" _ _ hy

theorem isMap_fullApply (d : Node) : IsMap (fullApply d) :=
  isMap_actA4 _ (isMap_actA3 _ (isMap_actA2 _))

theorem fullApply_getKey_security (d : Node) :
    (fullApply d).getKey "security" = some globalReq := by
  show (actA4 (actA3 (actA2 (actA1 d)))).getKey "security" = some globalReq
  rw [← getPath_singleton, actA4_getPath_head_ne _ _ _ (by decide),
    actA3_getPath_head_ne _ _ _ (by decide), getPath_singleton]
  exact actA2_getKey_security _

theorem fullApply_cs (d : Node) :
    getPath (fullApply d) ["components", "securitySchemes"] = none ∨
      ∃ m, getPath (fullApply d) ["components", "securitySchemes"] =
        some (mergeShallow m upd3) := by
  have hx : getPath (fullApply d) ["components", "securitySchemes"] =
      match getPath (actA2 (actA1 d)) ["components", "securitySchemes"] with
      | some m => some (mergeShallow m upd3)
      | none => none := by
    show getPath (actA4 (actA3 (actA2 (actA1 d)))) _ = _
    rw [actA4_getPath_head_ne _ _ _ (by decide)]
    exact actA3_cs _
  cases h : getPath (actA2 (actA1 d)) ["components", "securitySchemes"] with
  | some m =>
    rw [hx, h]
    exact Or.inr ⟨m, rfl⟩
  | none =>
    rw [hx, h]
    exact Or.inl rfl

/-! ## Idempotence of the full overlay -/

theorem opT1_isMap (c : Node) : IsMap (opT1 c) := by
  by_cases h1 : evalPred pred1 c
  · rw [show opT1 c = mergeShallow c upd1 from by simp [opT1, h1]]
    cases c with
    | map kvs => exact ⟨_, rfl⟩
    | scalar s => exact ⟨_, rfl⟩
    | arr xs => exact ⟨_, rfl⟩
  · rw [show opT1 c = c from by simp [opT1, h1]]
    simp only [pred1, evalPred, Bool.not_eq_true, Bool.not_eq_false] at h1
    cases hk : c.getKey "security" with
    | none => rw [hk] at h1; cases h1
    | some v =>
      cases c with
      | map kvs => exact ⟨kvs, rfl⟩
      | scalar s => cases hk
      | arr xs => cases hk

theorem pred4_of_emptyReq (n : Node)
    (h : n.getKey "security" = some (.arr [emptyReq])) :
    evalPred pred4 n = true := by
  have he : evalPred pred4 n =
      !evalPred (.fieldElemMatch "security" (.hasField "customer_session")) n := rfl
  have hfe : evalPred (.fieldElemMatch "security" (.hasField "customer_session")) n
      = false := by
    simp only [evalPred, h]
    rfl
  rw [he, hfe]
  rfl

theorem opsGood_fullApply (d : Node) (hwf : WF d) : OpsGood (fullApply d) := by
  intro a b n hg
  have hwf1 := WF_actA1 d hwf
  have hwf2 := WF_actA2 _ hwf1
  have hwf3 := WF_actA3 _ hwf2
  have hstr : fullApply d = mapOps opT4 (actA3 (actA2 (actA1 d))) :=
    actA4_struct _ hwf3
  rw [hstr] at hg
  obtain ⟨c, hc, rfl⟩ := getPath_mapOps_op opT4 _ a b n hg
  have hcop : getPath (actA1 d) ["paths", a, b] = some c := by
    have e3 : getPath (actA3 (actA2 (actA1 d))) ["paths", a, b]
        = getPath (actA2 (actA1 d)) ["paths", a, b] :=
      actA3_getPath_head_ne _ _ _ (by decide)
    have e2 : getPath (actA2 (actA1 d)) ["paths", a, b]
        = getPath (actA1 d) ["paths", a, b] :=
      actA2_getPath_ne _ _ _ (by decide)
    rw [e3, e2] at hc
    exact hc
  rw [actA1_struct d hwf] at hcop
  obtain ⟨c0, hc0, rfl⟩ := getPath_mapOps_op opT1 d a b c hcop
  obtain ⟨ckvs, hck⟩ := opT1_isMap c0
  by_cases h4 : evalPred pred4 (opT1 c0)
  · have ho4 : opT4 (opT1 c0) = (opT1 c0).removeKey "security" := by
      simp [opT4, h4]
    constructor
    · rw [ho4, hck]
      exact ⟨_, rfl⟩
    · left
      rw [ho4]
      exact getKey_removeKey_self _ _
  · have ho4 : opT4 (opT1 c0) = opT1 c0 := by simp [opT4, h4]
    constructor
    · rw [ho4]
      exact ⟨ckvs, hck⟩
    · right
      rw [ho4]
      simpa using h4

theorem opT41_id (n : Node) (hmap : IsMap n)
    (h : n.getKey "security" = none ∨ evalPred pred4 n = false) :
    opT4 (opT1 n) = n := by
  obtain ⟨kvs, rfl⟩ := hmap
  rcases h with hsec | h4
  · have h1 : evalPred pred1 (Node.map kvs) = true := by
      simp [pred1, evalPred, hsec]
    have ho1 : opT1 (Node.map kvs) =
        Node.map (kvs ++ [("security", .arr [emptyReq])]) := by
      rw [show opT1 (Node.map kvs) = mergeShallow (Node.map kvs) upd1 from
        by simp [opT1, h1]]
      show Node.map (setKeyList kvs "security" (.arr [emptyReq])) = _
      rw [setKeyList_append_absent kvs _ _ hsec]
    rw [ho1]
    have hsec' : lookupKey kvs "security" = none := hsec
    have hget : (Node.map (kvs ++ [("security", Node.arr [emptyReq])])).getKey
        "security" = some (.arr [emptyReq]) := by
      show lookupKey (kvs ++ [("security", Node.arr [emptyReq])]) "security" = _
      rw [lookupKey_append, hsec']
      simp [lookupKey]
    have h4' := pred4_of_emptyReq _ hget
    rw [show opT4 (Node.map (kvs ++ [("security", Node.arr [emptyReq])])) =
      (Node.map (kvs ++ [("security", Node.arr [emptyReq])])).removeKey "security"
      from by simp [opT4, h4']]
    show Node.map (removeKeyList (kvs ++ [("security", Node.arr [emptyReq])])
      "security") = _
    rw [removeKeyList_append_single kvs _ _ hsec]
  · have hfe : evalPred (.fieldElemMatch "security" (.hasField "customer_session"))
        (Node.map kvs) = true := by
      have he : evalPred pred4 (Node.map kvs) =
          !evalPred (.fieldElemMatch "security" (.hasField "customer_session"))
            (Node.map kvs) := rfl
      rw [he] at h4
      simpa using h4
    have hkey : ∃ xs, (Node.map kvs).getKey "security" = some (.arr xs) := by
      revert hfe
      cases hk : (Node.map kvs).getKey "security" with
      | none =>
        intro hfe
        simp [evalPred, hk] at hfe
      | some v =>
        cases v with
        | arr xs => intro _; exact ⟨xs, rfl⟩
        | scalar s =>
          intro hfe
          simp [evalPred, hk] at hfe
        | map mkvs =>
          intro hfe
          simp [evalPred, hk] at hfe
    obtain ⟨xs, hk⟩ := hkey
    have h1 : evalPred pred1 (Node.map kvs) = false := by
      simp [pred1, evalPred, hk]
    rw [show opT1 (Node.map kvs) = Node.map kvs from by simp [opT1, h1]]
    rw [show opT4 (Node.map kvs) = Node.map kvs from by simp [opT4, h4]]

theorem fullApply_idem (d : Node) (hwf : WF d) :
    fullApply (fullApply d) = fullApply d := by
  have hwfF : WF (fullApply d) := WF_fullApply d hwf
  have h1map : IsMap (actA1 (fullApply d)) := by
    rw [actA1_struct _ hwfF]
    exact isMap_mapOps _ _ (isMap_fullApply d)
  have h1sec : (actA1 (fullApply d)).getKey "security" = some globalReq := by
    rw [actA1_struct _ hwfF, getKey_mapOps_ne _ _ _ (by decide)]
    exact fullApply_getKey_security d
  have h2 : actA2 (actA1 (fullApply d)) = actA1 (fullApply d) :=
    actA2_stable _ h1sec h1map
  have h3 : actA3 (actA1 (fullApply d)) = actA1 (fullApply d) := by
    apply actA3_stable
    have hcs : getPath (actA1 (fullApply d)) ["components", "securitySchemes"] =
        getPath (fullApply d) ["components", "securitySchemes"] := by
      rw [actA1_struct _ hwfF]
      exact getPath_mapOps_head_ne _ _ _ _ (by decide)
    rw [hcs]
    exact fullApply_cs d
  show actA4 (actA3 (actA2 (actA1 (fullApply d)))) = fullApply d
  rw [h2, h3]
  have hwf1F : WF (actA1 (fullApply d)) := WF_actA1 _ hwfF
  rw [actA4_struct _ hwf1F, actA1_struct _ hwfF, mapOps_comp]
  exact mapOps_eq_self _ _ hwfF (fun a b n hg =>
    opT41_id n (opsGood_fullApply d hwf a b n hg).1
      (opsGood_fullApply d hwf a b n hg).2)

/-- **C6**: idempotence of the full overlay — applying the four-action
sequence a second time to the result of a first application changes
nothing: `apply(apply(d, actions), actions) = apply(d, actions)` for every
well-formed specification document. -/
theorem claim_C6 (d : Node) (hwf : WF d) :
    ∃ d', apply d actions = .ok d' ∧ apply d' actions = .ok d' := by
  refine ⟨fullApply d, apply_actions_eq d, ?_⟩
  rw [apply_actions_eq (fullApply d), fullApply_idem d hwf]

theorem claim_C6_witness :
    ∃ d',
      apply (Node.map [("paths", Node.map [("/x", Node.map [("get", Node.map [])])])])
        actions = .ok d' ∧
      apply d' actions = .ok d' :=
  claim_C6 _ (by
    refine WF.map _ (by simp) ?_
    rintro kv hkv
    simp only [List.mem_singleton] at hkv
    subst hkv
    refine WF.map _ (by simp) ?_
    rintro kv hkv
    simp only [List.mem_singleton] at hkv
    subst hkv
    refine WF.map _ (by simp) ?_
    rintro kv hkv
    simp only [List.mem_singleton] at hkv
    subst hkv
    exact WF.map [] (by simp) (by simp))

end Overlay
